import Mathlib

/-!
# Lispy: a shallow embedding of `src/lisp.c`

The interpreter works on a heap of `object`s reached through C pointers.  The
embedding keeps every function of the source under its own name and makes the
three things that C leaves implicit explicit:

* the `NULL` pointer is a value of its own (`Obj.null`);
* the one cell that `init_env` stores in the global `nil` is compared by address
  (`pred != nil` in `fn_cond`), so every `CONS` cell carries a mark saying whether
  it is that cell;
* a call may return, call `exit`, run into undefined behaviour (a `NULL` or
  wrongly typed pointer is dereferenced), or never return; `Res` records which.

`append` is the only operation that writes into an existing cell.  It is applied
to lists that the calling function has just allocated and to the environment, whose
spine no value points into, so state passing (every evaluation returns the
environment next to its value) describes the mutation exactly.

Where C leaves the order of two argument evaluations open (`strcmp(name(a), name(b))`,
the two arguments of the outer `cons` in `fn_label`), the embedding runs them left to
right; the orders differ only in which of two failures is reported.  An atom's name
is a `String`; C names end at the first NUL, so only strings without NUL occur.
`eval` takes a bound on the depth of its nested calls; statements about a result
hold for every bound from some point on.  The input stream is the list of the
characters not yet read; `read_tail` takes a bound on the depth of its nested calls
in the same way.
-/

namespace Lispy

/-- The nine C functions that `init_env` wraps with `func`. -/
inductive Fn where
  | quote | first | second | cons | equal | atom | cond | lambda | label
  deriving DecidableEq, Repr

/-- An `object *`: `NULL`, or a pointer to an `ATOM`, `CONS`, `FUNC` or `LAMBDA`
object.  `cons true _ _` is the cell held by the global `nil`; every cell made by
any other call of `cons` is `cons false _ _`. -/
inductive Obj where
  | null : Obj
  | atom (name : String) : Obj
  | cons (isNil : Bool) (car cdr : Obj) : Obj
  | func (fn : Fn) : Obj
  | lambda (args sexp : Obj) : Obj
  deriving DecidableEq, Repr

/-- Outcome of running a C function. -/
inductive Res (α : Type) where
  /-- the function returned -/
  | ok (a : α) : Res α
  /-- the process ended through `exit(code)` -/
  | exit (code : Nat) : Res α
  /-- undefined behaviour: `NULL` or an object of another type was dereferenced -/
  | undef : Res α
  /-- the recursion bound of the model was reached before the call returned -/
  | timeout : Res α
  deriving DecidableEq, Repr

/-- Sequencing of C statements: the first outcome that is not a return ends the run. -/
def Res.bind {α β : Type} : Res α → (α → Res β) → Res β
  | .ok a, f => f a
  | .exit c, _ => .exit c
  | .undef, _ => .undef
  | .timeout, _ => .timeout

instance : Monad Res where
  pure := Res.ok
  bind := Res.bind

open Obj Res

/-- The global `tee`, set by `init_env` to `atom("#T")`. -/
def tee : Obj := atom "#T"

/-- The global `nil`, set by `init_env` to `cons(NULL, NULL)`. -/
def nil : Obj := cons true null null

/-- Macro `first(X)`: `((cons_object *) (X))->car`. -/
def first : Obj → Res Obj
  | cons _ a _ => ok a
  | _ => undef

/-- Macro `second(X)`: `((cons_object *) (X))->cdr`. -/
def second : Obj → Res Obj
  | cons _ _ d => ok d
  | _ => undef

/-- Function `name`: reads `o->type`, exits with status 1 unless it is `ATOM`. -/
def name : Obj → Res String
  | null => undef
  | atom n => ok n
  | _ => exit 1

/-- Function `append`: walks to the cell whose `cdr` is `NULL` and stores
`cons(obj, NULL)` there.  The result is the list as it is after the store. -/
def append : Obj → Obj → Res Obj
  | cons t a null, obj => ok (cons t a (cons false obj null))
  | cons t a d, obj => do
      let d1 ← append d obj
      ok (cons t a d1)
  | _, _ => undef

/-- Function `fn_first` (bound to `CAR`). -/
def fn_first (args env : Obj) : Res (Obj × Obj) := do
  let a ← first args
  let r ← first a
  ok (r, env)

/-- Function `fn_second` (bound to `CDR`). -/
def fn_second (args env : Obj) : Res (Obj × Obj) := do
  let a ← first args
  let r ← second a
  ok (r, env)

/-- Function `fn_quote` (bound to `QUOTE`). -/
def fn_quote (args env : Obj) : Res (Obj × Obj) := do
  let a ← first args
  ok (a, env)

/-- The `while` loop of `fn_cons`. -/
def fn_cons_loop : Obj → Obj → Res Obj
  | cons _ a d, list => do
      let list1 ← append list a
      fn_cons_loop d list1
  | _, list => ok list

/-- Function `fn_cons` (bound to `CONS`). -/
def fn_cons (args env : Obj) : Res (Obj × Obj) := do
  let a ← first args
  let list := cons false a null
  let args1 ← first (← second args)
  let r ← fn_cons_loop args1 list
  ok (r, env)

/-- Function `fn_equal` (bound to `EQUAL`). -/
def fn_equal (args env : Obj) : Res (Obj × Obj) := do
  let a ← first args
  let b ← first (← second args)
  let na ← name a
  let nb ← name b
  if na = nb then ok (tee, env) else ok (nil, env)

/-- Function `fn_atom` (bound to `ATOM`). -/
def fn_atom (args env : Obj) : Res (Obj × Obj) := do
  let a ← first args
  match a with
  | null => undef
  | atom _ => ok (tee, env)
  | _ => ok (nil, env)

/-- Pointer comparison `p == nil`: whether `p` is the cell held by the global `nil`. -/
def isNilCell : Obj → Bool
  | cons true _ _ => true
  | _ => false

/-- Function `fn_cond` (bound to `COND`); `ev` is `eval`. -/
def fn_cond (ev : Obj → Obj → Res (Obj × Obj)) : Obj → Obj → Res (Obj × Obj)
  | cons _ list rest, env => do
      let t ← first list
      let (pred, env1) ← (if t = null then ok (nil, env) else ev t env)
      let ret ← first (← second list)
      if isNilCell pred then fn_cond ev rest env1 else ev ret env1
  | _, env => ok (nil, env)

/-- The `while` loop of `interleave`. -/
def interleave_loop : Obj → Obj → Obj → Res Obj
  | cons _ a d, c2, list => do
      let b ← first c2
      let list1 ← append list (cons false a (cons false b null))
      let c2n ← second c2
      interleave_loop d c2n list1
  | _, _, list => ok list

/-- Function `interleave`. -/
def interleave (c1 c2 : Obj) : Res Obj := do
  let a ← first c1
  let b ← first c2
  let list := cons false (cons false a (cons false b null)) null
  let c1n ← second c1
  let c2n ← second c2
  interleave_loop c1n c2n list

/-- The `else` branch of `replace_atom`: the scan of the pairing list `with`. -/
def replace_scan (sexp : Obj) : Obj → Res Obj
  | cons _ item rest => do
      let a ← first item
      let replacement ← first (← second item)
      let na ← name a
      let ns ← name sexp
      if na = ns then ok replacement else replace_scan sexp rest
  | _ => ok sexp

mutual
/-- Function `replace_atom`. -/
def replace_atom : Obj → Obj → Res Obj
  | null, _ => undef
  | cons _ a d, w => do
      let h ← replace_atom a w
      replace_atom_loop d w (cons false h null)
  | atom n, w => replace_scan (atom n) w
  | func f, w => replace_scan (func f) w
  | lambda p b, w => replace_scan (lambda p b) w
/-- The `while` loop of the `CONS` branch of `replace_atom`. -/
def replace_atom_loop : Obj → Obj → Obj → Res Obj
  | cons _ a d, w, list => do
      let h ← replace_atom a w
      let list1 ← append list h
      replace_atom_loop d w list1
  | _, _, list => ok list
end

/-- Function `fn_lambda` (bound to `LAMBDA`, and called by `eval_fn` for a closure);
`ev` is `eval`. -/
def fn_lambda (ev : Obj → Obj → Res (Obj × Obj)) (args env : Obj) : Res (Obj × Obj) := do
  let lam ← first args
  let args1 ← second args
  match lam with
  | lambda largs lsexp => do
      let list ← interleave largs args1
      let sexp ← replace_atom lsexp list
      ev sexp env
  | _ => undef

/-- Function `fn_label` (bound to `LABEL`). -/
def fn_label (args env : Obj) : Res (Obj × Obj) := do
  let n ← name (← first args)
  let v ← first (← second args)
  let env1 ← append env (cons false (atom n) (cons false v null))
  ok (tee, env1)

/-- Function `lookup`; the result `NULL` says that no association matched. -/
def lookup (n : String) : Obj → Res Obj
  | cons _ item rest => do
      let fnname ← first item
      let value ← first (← second item)
      let m ← name fnname
      if m = n then ok value else lookup n rest
  | _ => ok null

/-- One association `cons(atom(n), cons(v, NULL))` of the environment. -/
def assoc (n : String) (v : Obj) : Obj :=
  cons false (atom n) (cons false v null)

/-- Function `init_env`: the environment it returns. -/
def init_env : Obj :=
  cons false (assoc "QUOTE" (func .quote))
  (cons false (assoc "CAR" (func .first))
  (cons false (assoc "CDR" (func .second))
  (cons false (assoc "CONS" (func .cons))
  (cons false (assoc "EQUAL" (func .equal))
  (cons false (assoc "ATOM" (func .atom))
  (cons false (assoc "COND" (func .cond))
  (cons false (assoc "LAMBDA" (func .lambda))
  (cons false (assoc "LABEL" (func .label)) null))))))))

/-- The call `(((func_object *) (symbol))->fn)(args, env)`. -/
def callFn (ev : Obj → Obj → Res (Obj × Obj)) : Fn → Obj → Obj → Res (Obj × Obj)
  | .quote => fn_quote
  | .first => fn_first
  | .second => fn_second
  | .cons => fn_cons
  | .equal => fn_equal
  | .atom => fn_atom
  | .cond => fn_cond ev
  | .lambda => fn_lambda ev
  | .label => fn_label

/-- Function `eval_fn`; `ev` is `eval`. -/
def eval_fn (ev : Obj → Obj → Res (Obj × Obj)) (sexp env : Obj) : Res (Obj × Obj) := do
  let symbol ← first sexp
  let args ← second sexp
  match symbol with
  | null => undef
  | lambda _ _ => fn_lambda ev sexp env
  | func f => callFn ev f args env
  | _ => ok (sexp, env)

/-- The `while` loop of `eval`: evaluates the remaining cells into `accum`. -/
def eval_loop (ev : Obj → Obj → Res (Obj × Obj)) : Obj → Obj → Obj → Res (Obj × Obj)
  | cons _ a d, accum, env => do
      let (v, env1) ← ev a env
      let accum1 ← append accum v
      eval_loop ev d accum1 env1
  | _, accum, env => ok (accum, env)

/-- Function `eval`.  The first argument bounds the depth of nested calls of
`eval`; at depth zero the outcome is `timeout`.  The result pairs the returned
object with the environment as the call leaves it. -/
def eval : Nat → Obj → Obj → Res (Obj × Obj)
  | 0, _, _ => timeout
  | _ + 1, null, env => ok (nil, env)
  | k + 1, cons _ a d, env =>
      if a = null then undef
      else if a = atom "LAMBDA" then do
        let largs ← first d
        let lsexp ← first (← second d)
        ok (lambda largs lsexp, env)
      else do
        let (v, env1) ← eval k a env
        let (accum, env2) ← eval_loop (eval k) d (cons false v null) env1
        eval_fn (eval k) accum env2
  | _ + 1, sexp, env => do
      let n ← name sexp
      let val ← lookup n env
      if val = null then ok (sexp, env) else ok (val, env)

mutual
/-- Function `print`: the text written to standard output. -/
def print : Obj → String
  | null => ""
  | cons _ a d => "(" ++ print a ++ print_loop d ++ ")"
  | atom n => n
  | lambda p b => "#" ++ print p ++ print b
  | func _ => "error"
/-- The `while` loop of the `CONS` branch of `print`. -/
def print_loop : Obj → String
  | cons _ a d => " " ++ print a ++ print_loop d
  | _ => ""
end

/-- Function `isspace` of the C library, in the "C" locale. -/
def isspace (c : Char) : Bool :=
  c.toNat = 32 || (9 ≤ c.toNat && c.toNat ≤ 13)

/-- Function `getc`: the next character (`none` is `EOF`) and the rest of the stream. -/
def getc : List Char → Option Char × List Char
  | [] => (none, [])
  | c :: cs => (some c, cs)

/-- The loop `while (isspace(ch)) ch = getc(in);` of `next_token`. -/
def skip_loop : Option Char → List Char → Option Char × List Char
  | none, inp => (none, inp)
  | some c, [] => if isspace c then (none, []) else (some c, [])
  | some c, d :: ds => if isspace c then skip_loop (some d) ds else (some c, d :: ds)

/-- The loop `while (!isspace(ch) && ch != ')')` of `next_token`, which stores `ch`
in `buffer[128]` and reads on.  A store at index 128 is outside the buffer.  At `EOF`
neither test stops the loop and `getc` keeps answering `EOF`, so the stores run on
until they leave the buffer: a token that the end of the stream cuts off ends in
undefined behaviour. -/
def token_loop : Option Char → List Char → List Char → Res (List Char × Option Char × List Char)
  | none, _, _ => undef
  | some c, [], buffer =>
      if isspace c || c = ')' then ok (buffer, some c, []) else undef
  | some c, d :: ds, buffer =>
      if isspace c || c = ')' then ok (buffer, some c, d :: ds)
      else if 128 ≤ buffer.length then undef
      else token_loop (some d) ds (buffer ++ [c])

/-- Function `next_token`: the token as an atom, and the stream after it. -/
def next_token (inp : List Char) : Res (Obj × List Char) :=
  let (ch0, in0) := getc inp
  let (ch1, in1) := skip_loop ch0 in0
  let (ch2, in2) := if ch1 = some '\n' then getc in1 else (ch1, in1)
  match ch2 with
  | none => exit 0
  | some c =>
      if c = ')' then ok (atom ")", in2)
      else if c = '(' then ok (atom "(", in2)
      else do
        let (buffer, ch, in3) ← token_loop (some c) in2 []
        if 128 ≤ buffer.length then undef
        else
          let in4 := if ch = some ')' then ')' :: in3 else in3
          ok (atom (String.mk (buffer.takeWhile (fun x => x ≠ Char.ofNat 0))), in4)

/-- Function `read_tail`; the first argument bounds the depth of its nested calls. -/
def read_tail : Nat → List Char → Res (Obj × List Char)
  | 0, _ => timeout
  | k + 1, inp => do
      let (token, in1) ← next_token inp
      let n ← name token
      if n = ")" then ok (null, in1)
      else if n = "(" then do
        let (first, in2) ← read_tail k in1
        let (second, in3) ← read_tail k in2
        ok (cons false first second, in3)
      else do
        let (second, in2) ← read_tail k in1
        ok (cons false token second, in2)

/-- Function `read`; the first argument bounds the depth of nested calls of
`read_tail`. -/
def read (k : Nat) (inp : List Char) : Res (Obj × List Char) := do
  let (token, in1) ← next_token inp
  let n ← name token
  if n = "(" then read_tail k in1 else ok (token, in1)

/-- A proper list built by fresh `cons` calls. -/
def list : List Obj → Obj
  | [] => null
  | x :: xs => cons false x (list xs)


/-! ## Vocabulary of the statements -/

/-- The objects a `while (p != NULL && p->type == CONS)` loop visits: the `car` of
every cell of the chain, in order. -/
def elems : Obj → List Obj
  | cons _ a d => a :: elems d
  | _ => []

/-- Whether an object is a list: a chain of `CONS` cells that ends in `NULL`
(`NULL` itself is the list without cells). -/
def isList : Obj → Bool
  | null => true
  | cons _ _ d => isList d
  | _ => false

/-- Forgets which cells are the `nil` cell.  Two objects are structurally equal
(same shape, same atom names, same functions) when `untag` sends them to the
same object. -/
def untag : Obj → Obj
  | null => null
  | atom n => atom n
  | cons _ a d => cons false (untag a) (untag d)
  | func f => func f
  | lambda p b => lambda (untag p) (untag b)

/-- The environment holding the associations `bs`, first one at the head, built
the way `init_env` and `fn_label` build it. -/
def envOf : List (String × Obj) → Obj
  | [] => null
  | (n, v) :: bs => cons false (assoc n v) (envOf bs)

/-- The value of the first association of `bs` whose name is `n`, if there is one. -/
def firstValue (n : String) : List (String × Obj) → Option Obj
  | [] => none
  | (m, v) :: bs => if m = n then some v else firstValue n bs

/-- The associations that `init_env` creates. -/
def initBindings : List (String × Obj) :=
  [("QUOTE", func .quote), ("CAR", func .first), ("CDR", func .second),
   ("CONS", func .cons), ("EQUAL", func .equal), ("ATOM", func .atom),
   ("COND", func .cond), ("LAMBDA", func .lambda), ("LABEL", func .label)]

/-- A literal on which evaluation in the environment of `init_env` changes
nothing: an atom that `init_env` does not bind, or a list as `read` allocates it
(no `nil` cell) with at least one element, all its elements being such literals. -/
def inert : Obj → Bool
  | atom n => (firstValue n initBindings).isNone
  | cons false a null => inert a
  | cons false a (cons t b d) => inert a && inert (cons t b d)
  | _ => false

/-- Evaluator `g` agrees with evaluator `f` wherever `f` does not time out. -/
def Extends (f g : Obj → Obj → Res (Obj × Obj)) : Prop :=
  ∀ e env, f e env ≠ timeout → g e env = f e env

/-- The closure made by `(LAMBDA (X) (CONS X (Y)))`; `Y` is free in its body. -/
def closureConsY : Obj :=
  lambda (list [atom "X"]) (list [atom "CONS", atom "X", list [atom "Y"]])

/-- The closure made by `(LAMBDA (X) (F X))`. -/
def closureLoop : Obj :=
  lambda (list [atom "X"]) (list [atom "F", atom "X"])

/-- An expression in which no closure and no `COND` can come up: `NULL`, atoms
other than `LAMBDA` and `COND`, and cells holding such expressions. -/
def plain : Obj → Bool
  | null => true
  | atom n => decide (n ≠ "LAMBDA") && decide (n ≠ "COND")
  | cons _ a d => plain a && plain d
  | func _ => false
  | lambda _ _ => false

/-- A value that holds no closure and neither of the two built-ins that call
`eval` (`fn_cond`, `fn_lambda`). -/
def tame : Obj → Bool
  | null => true
  | atom _ => true
  | cons _ a d => tame a && tame d
  | func f => decide (f ≠ .cond) && decide (f ≠ .lambda)
  | lambda _ _ => false

/-- An environment in which `lookup` of every name other than `LAMBDA` and `COND`
finds a tame value, if it finds one. -/
def TameEnv (env : Obj) : Prop :=
  ∀ n v, n ≠ "LAMBDA" → n ≠ "COND" → lookup n env = ok v → tame v = true

/-- The call ends (it returns, exits or faults; it does not run on for ever), and
what it returns satisfies `P`. -/
def Ends {α : Type} (r : Res α) (P : α → Prop) : Prop :=
  r ≠ timeout ∧ ∀ a, r = ok a → P a

/-- A returned object and environment that are both tame. -/
def TameOut (r : Obj × Obj) : Prop := tame r.1 = true ∧ TameEnv r.2

/-- The expression `(C ((P) A))`. -/
def condLoopExpr : Obj := list [atom "C", list [list [atom "P"], atom "A"]]

/-- The environment of `init_env` after `(LABEL P (C ((P) A)))` and `(LABEL C COND)`. -/
def condLoopEnv : Obj := envOf (initBindings ++ [("P", condLoopExpr), ("C", func .cond)])

/-- Whether an object is an `ATOM`. -/
def isAtom : Obj → Bool
  | atom _ => true
  | _ => false

/-- Evaluating the expressions `xs` one after the other, left to right, each in the
environment the one before it left: the values in order and the last environment. -/
def evalSeq (ev : Obj → Obj → Res (Obj × Obj)) : List Obj → Obj → Res (List Obj × Obj)
  | [], env => ok ([], env)
  | x :: xs, env => do
      let (v, env1) ← ev x env
      let (vs, env2) ← evalSeq ev xs env1
      ok (v :: vs, env2)

/-- The expression `(LAMBDA (X) X)`. -/
def identityForm : Obj := list [atom "LAMBDA", list [atom "X"], atom "X"]

/-- A call that, if it returns, leaves an environment holding the associations `bs`
followed by further ones. -/
def GrowsFrom (bs : List (String × Obj)) (r : Res (Obj × Obj)) : Prop :=
  ∀ v env1, r = ok (v, env1) → ∃ extra, env1 = envOf (bs ++ extra)

/-- An evaluator that only ever adds associations at the end of the environment. -/
def Grows (ev : Obj → Obj → Res (Obj × Obj)) : Prop :=
  ∀ e bs, GrowsFrom bs (ev e (envOf bs))

/-- Whether `c` ends an atom token: white space or `)`. -/
def isDelim (c : Char) : Bool := isspace c || c = ')'

/-- What holds of the name of every token that `next_token` reads into its buffer,
also when a NUL cuts the name short: it holds no white space and no `)`, and does
not begin with `(`. -/
def tokenChars (s : String) : Bool :=
  match s.data with
  | [] => true
  | c :: cs => decide (c ≠ '(') && (c :: cs).all (fun x => !isDelim x)

/-- The name of a token that `next_token` reads into its buffer: it is not empty,
holds no white space and no `)`, and does not begin with `(`. -/
def tokenName (s : String) : Bool :=
  match s.data with
  | [] => false
  | c :: cs => decide (c ≠ '(') && (c :: cs).all (fun x => !isDelim x)

/-- Whether every atom that occurs in an object has a name satisfying `p`. -/
def atomsAll (p : String → Bool) : Obj → Bool
  | null => true
  | atom n => p n
  | cons _ a d => atomsAll p a && atomsAll p d
  | func _ => true
  | lambda a b => atomsAll p a && atomsAll p b

/-- A name that `print` and `read` carry unchanged: not empty, at most 127
characters (it fits the buffer of `next_token`), without white space, parentheses
or NUL. -/
def goodName (s : String) : Bool :=
  !s.data.isEmpty && decide (s.data.length ≤ 127)
    && s.data.all (fun c => !isDelim c && decide (c ≠ '(') && decide (c ≠ Char.ofNat 0))

/-- An object built only from atoms with such names and from proper lists, with at
least one element, of such objects. -/
def printable : Obj → Bool
  | atom n => goodName n
  | cons _ a null => printable a
  | cons _ a (cons t b d) => printable a && printable (cons t b d)
  | _ => false

/-- The value paired with the first of the parameters `ps` that is named `n`, when
the parameters are paired in order with the values `vs`. -/
def firstArg (n : String) : List String → List Obj → Option Obj
  | p :: ps, v :: vs => if p = n then some v else firstArg n ps vs
  | _, _ => none

mutual
/-- The body with every atom leaf that names a parameter replaced by the value of
the first parameter of that name, as a fresh tree of the same shape. -/
def substSpec (ps : List String) (vs : List Obj) : Obj → Obj
  | atom n => (firstArg n ps vs).getD (atom n)
  | cons _ a d => cons false (substSpec ps vs a) (substTail ps vs d)
  | null => null
  | func f => func f
  | lambda p b => lambda p b
/-- The same for the remaining cells of a list. -/
def substTail (ps : List String) (vs : List Obj) : Obj → Obj
  | cons _ a d => cons false (substSpec ps vs a) (substTail ps vs d)
  | _ => null
end

mutual
/-- A body built only from atoms and proper lists with at least one element. -/
def isBody : Obj → Bool
  | atom _ => true
  | cons _ a d => isBody a && isBodyTail d
  | _ => false
/-- The remaining cells of such a list. -/
def isBodyTail : Obj → Bool
  | null => true
  | cons _ a d => isBody a && isBodyTail d
  | _ => false
end

/-- The pairing list that `interleave` builds from parameter names and values. -/
def pairs : List String → List Obj → List Obj
  | p :: ps, v :: vs => list [atom p, v] :: pairs ps vs
  | _, _ => []

/-! ## Sequencing lemmas -/

@[simp] theorem ok_bind {α β : Type} (a : α) (f : α → Res β) : (ok a >>= f) = f a := rfl

@[simp] theorem exit_bind {α β : Type} (c : Nat) (f : α → Res β) :
    ((exit c : Res α) >>= f) = exit c := rfl

@[simp] theorem undef_bind {α β : Type} (f : α → Res β) : ((undef : Res α) >>= f) = undef := rfl

@[simp] theorem timeout_bind {α β : Type} (f : α → Res β) :
    ((timeout : Res α) >>= f) = timeout := rfl

@[simp] theorem pure_eq_ok {α : Type} (a : α) : (pure a : Res α) = ok a := rfl

/-- A sequence that does not time out has a first step that does not time out. -/
theorem bind_ne_timeout_left {α β : Type} {x : Res α} {f : α → Res β}
    (h : (x >>= f) ≠ timeout) : x ≠ timeout := by
  intro hx
  exact h (by rw [hx]; rfl)

/-- Replacing both steps of a sequence by steps that agree with them whenever they
do not time out leaves a sequence that does not time out unchanged. -/
theorem bind_stable {α β : Type} {x y : Res α} {f g : α → Res β}
    (hx : x ≠ timeout → y = x)
    (hf : ∀ a, x = ok a → f a ≠ timeout → g a = f a)
    (h : (x >>= f) ≠ timeout) : (y >>= g) = (x >>= f) := by
  have hy := hx (bind_ne_timeout_left h)
  subst hy
  cases hxa : y with
  | ok a =>
      rw [hxa] at h
      simp only [ok_bind] at h ⊢
      exact hf a hxa h
  | exit c => rfl
  | undef => rfl
  | timeout => rfl

/-! ## Unfolding `eval` -/

theorem eval_zero (e env : Obj) : eval 0 e env = timeout := by
  cases e <;> rfl

theorem eval_null (k : Nat) (env : Obj) : eval (k + 1) null env = ok (nil, env) := rfl

theorem eval_cons (k : Nat) (t : Bool) (a d env : Obj) :
    eval (k + 1) (cons t a d) env =
      (if a = null then undef
      else if a = atom "LAMBDA" then do
        let largs ← first d
        let lsexp ← first (← second d)
        ok (lambda largs lsexp, env)
      else do
        let (v, env1) ← eval k a env
        let (accum, env2) ← eval_loop (eval k) d (cons false v null) env1
        eval_fn (eval k) accum env2) := by
  rw [eval]

theorem eval_atom (k : Nat) (n : String) (env : Obj) :
    eval (k + 1) (atom n) env =
      (lookup n env >>= fun val => if val = null then ok (atom n, env) else ok (val, env)) := rfl

theorem eval_func (k : Nat) (f : Fn) (env : Obj) : eval (k + 1) (func f) env = exit 1 := rfl

theorem eval_lambda (k : Nat) (p b env : Obj) : eval (k + 1) (lambda p b) env = exit 1 := rfl

/-! ## The recursion bound only cuts evaluations short -/

theorem fn_cond_stable {f g : Obj → Obj → Res (Obj × Obj)} (hfg : Extends f g) :
    ∀ args env, fn_cond f args env ≠ timeout → fn_cond g args env = fn_cond f args env := by
  intro args
  induction args with
  | null => intro env _; rfl
  | atom n => intro env _; rfl
  | func fn => intro env _; rfl
  | lambda p b _ _ => intro env _; rfl
  | cons t a d _ ihd =>
      intro env h
      simp only [fn_cond] at h ⊢
      refine bind_stable (fun _ => rfl) (fun t1 _ h1 => ?_) h
      refine bind_stable ?_ (fun pe _ h2 => ?_) h1
      · intro h3
        by_cases ht : t1 = null
        · simp [ht]
        · simp only [ht, if_false] at h3 ⊢
          exact hfg _ _ h3
      · obtain ⟨pred, env1⟩ := pe
        simp only at h2 ⊢
        refine bind_stable (fun _ => rfl) (fun s _ h3 => ?_) h2
        refine bind_stable (fun _ => rfl) (fun ret _ h4 => ?_) h3
        by_cases hp : isNilCell pred = true
        · simp only [hp, if_true] at h4 ⊢
          exact ihd env1 h4
        · simp only [hp] at h4 ⊢
          exact hfg _ _ h4

theorem fn_lambda_stable {f g : Obj → Obj → Res (Obj × Obj)} (hfg : Extends f g)
    (args env : Obj) (h : fn_lambda f args env ≠ timeout) :
    fn_lambda g args env = fn_lambda f args env := by
  simp only [fn_lambda] at h ⊢
  refine bind_stable (fun _ => rfl) (fun lam _ h1 => ?_) h
  refine bind_stable (fun _ => rfl) (fun args1 _ h2 => ?_) h1
  cases lam with
  | lambda p b =>
      simp only at h2 ⊢
      refine bind_stable (fun _ => rfl) (fun l _ h3 => ?_) h2
      refine bind_stable (fun _ => rfl) (fun s _ h4 => ?_) h3
      exact hfg _ _ h4
  | _ => rfl

theorem callFn_stable {f g : Obj → Obj → Res (Obj × Obj)} (hfg : Extends f g)
    (fn : Fn) (args env : Obj) (h : callFn f fn args env ≠ timeout) :
    callFn g fn args env = callFn f fn args env := by
  cases fn with
  | cond => exact fn_cond_stable hfg args env h
  | lambda => exact fn_lambda_stable hfg args env h
  | _ => rfl

theorem eval_fn_stable {f g : Obj → Obj → Res (Obj × Obj)} (hfg : Extends f g)
    (sexp env : Obj) (h : eval_fn f sexp env ≠ timeout) :
    eval_fn g sexp env = eval_fn f sexp env := by
  simp only [eval_fn] at h ⊢
  refine bind_stable (fun _ => rfl) (fun symbol _ h1 => ?_) h
  refine bind_stable (fun _ => rfl) (fun args _ h2 => ?_) h1
  cases symbol with
  | lambda p b => exact fn_lambda_stable hfg sexp env h2
  | func fn => exact callFn_stable hfg fn args env h2
  | _ => rfl

theorem eval_loop_stable {f g : Obj → Obj → Res (Obj × Obj)} (hfg : Extends f g) :
    ∀ d accum env, eval_loop f d accum env ≠ timeout →
      eval_loop g d accum env = eval_loop f d accum env := by
  intro d
  induction d with
  | null => intro accum env _; rfl
  | atom n => intro accum env _; rfl
  | func fn => intro accum env _; rfl
  | lambda p b _ _ => intro accum env _; rfl
  | cons t a d _ ihd =>
      intro accum env h
      simp only [eval_loop] at h ⊢
      refine bind_stable (hfg _ _) (fun ve _ h1 => ?_) h
      obtain ⟨v, env1⟩ := ve
      simp only at h1 ⊢
      refine bind_stable (fun _ => rfl) (fun accum1 _ h2 => ?_) h1
      exact ihd accum1 env1 h2

/-- One more level of nesting never changes an evaluation that already finished. -/
theorem eval_succ_stable : ∀ k, Extends (eval k) (eval (k + 1)) := by
  intro k
  induction k with
  | zero => intro e env h; exact absurd rfl h
  | succ k ih =>
      intro e env h
      cases e with
      | null => rfl
      | atom n => rfl
      | func fn => rfl
      | lambda p b => rfl
      | cons t a d =>
          rw [eval_cons] at h
          rw [eval_cons, eval_cons]
          by_cases ha : a = null
          · simp [ha]
          · by_cases hl : a = atom "LAMBDA"
            · simp [hl]
            · simp only [ha, hl, if_false] at h ⊢
              refine bind_stable (ih _ _) (fun ve _ h1 => ?_) h
              obtain ⟨v, env1⟩ := ve
              simp only at h1 ⊢
              refine bind_stable (eval_loop_stable ih _ _ _) (fun ae _ h2 => ?_) h1
              obtain ⟨accum, env2⟩ := ae
              simp only at h2 ⊢
              exact eval_fn_stable ih _ _ h2

/-- An evaluation that finished within bound `k` gives the same outcome within
every larger bound. -/
theorem eval_add_stable (k j : Nat) (e env : Obj) (h : eval k e env ≠ timeout) :
    eval (k + j) e env = eval k e env := by
  induction j with
  | zero => rfl
  | succ j ih =>
      have h1 : eval (k + j) e env ≠ timeout := by rw [ih]; exact h
      rw [← Nat.add_assoc, eval_succ_stable (k + j) e env h1, ih]

/-! ## Lists built by `append` -/

theorem append_cons_cons (t : Bool) (a : Obj) (t2 : Bool) (b d obj : Obj) :
    append (cons t a (cons t2 b d)) obj =
      (append (cons t2 b d) obj >>= fun d1 => ok (cons t a d1)) := by
  rw [append]
  intro h
  cases h

theorem append_list (x : Obj) (xs : List Obj) (v : Obj) :
    append (list (x :: xs)) v = ok (list (x :: (xs ++ [v]))) := by
  induction xs generalizing x with
  | nil => rfl
  | cons y ys ih =>
      have h := ih y
      simp only [list] at h ⊢
      rw [append_cons_cons, h]
      rfl

theorem fn_cons_loop_list (d x : Obj) (xs : List Obj) :
    fn_cons_loop d (list (x :: xs)) = ok (list (x :: (xs ++ elems d))) := by
  induction d generalizing xs with
  | cons t a d _ ihd =>
      rw [fn_cons_loop, append_list]
      simp only [ok_bind, elems]
      rw [ihd]
      simp
  | null => simp [fn_cons_loop, elems]
  | atom n => simp [fn_cons_loop, elems]
  | func f => simp [fn_cons_loop, elems]
  | lambda p b _ _ => simp [fn_cons_loop, elems]

theorem untag_list_elems (d : Obj) (h : isList d = true) : untag (list (elems d)) = untag d := by
  induction d with
  | cons t a d _ ihd =>
      simp only [isList] at h
      simp only [elems, list, untag, ihd h]
  | null => rfl
  | atom n => simp [isList] at h
  | func f => simp [isList] at h
  | lambda p b _ _ => simp [isList] at h

/-! ## The environment as a list of associations -/

theorem init_env_eq : init_env = envOf initBindings := rfl

theorem lookup_envOf (n : String) (bs : List (String × Obj)) :
    lookup n (envOf bs) = ok ((firstValue n bs).getD null) := by
  induction bs with
  | nil => rfl
  | cons b bs ih =>
      obtain ⟨m, v⟩ := b
      simp only [envOf, lookup, assoc, first, second, name, ok_bind, firstValue]
      by_cases h : m = n
      · simp [h]
      · simp [h, ih]

theorem append_envOf (bs : List (String × Obj)) (hbs : bs ≠ []) (n : String) (v : Obj) :
    append (envOf bs) (assoc n v) = ok (envOf (bs ++ [(n, v)])) := by
  induction bs with
  | nil => exact absurd rfl hbs
  | cons b bs ih =>
      obtain ⟨m, w⟩ := b
      cases bs with
      | nil => rfl
      | cons c cs =>
          have h := ih (by simp)
          obtain ⟨m2, w2⟩ := c
          simp only [envOf, List.cons_append] at h ⊢
          rw [append_cons_cons, h]
          rfl

theorem firstValue_append (n : String) (bs cs : List (String × Obj)) :
    firstValue n (bs ++ cs) = (firstValue n bs).orElse (fun _ => firstValue n cs) := by
  induction bs with
  | nil => rfl
  | cons b bs ih =>
      obtain ⟨m, v⟩ := b
      simp only [List.cons_append, firstValue]
      by_cases h : m = n
      · simp [h]
      · simp [h, ih]

theorem firstValue_ne_nil {n : String} {bs : List (String × Obj)} {v : Obj}
    (h : firstValue n bs = some v) : bs ≠ [] := by
  intro hb
  rw [hb] at h
  exact absurd h (by simp [firstValue])

/-! ## Literals that evaluate to themselves -/

theorem list_elems_of_inert (L : Obj) (h : inert L = true) (hc : ∃ t a d, L = cons t a d) :
    list (elems L) = L := by
  induction L with
  | cons t a d _ ihd =>
      cases t with
      | true => simp [inert] at h
      | false =>
          cases d with
          | null => rfl
          | cons t2 b d2 =>
              simp only [inert, Bool.and_eq_true] at h
              have h2 := ihd h.2 ⟨t2, b, d2, rfl⟩
              simp only [elems, list] at h2 ⊢
              rw [h2]
          | atom n => simp [inert] at h
          | func f => simp [inert] at h
          | lambda p b => simp [inert] at h
  | null => obtain ⟨t, a, d, h1⟩ := hc; cases h1
  | atom n => obtain ⟨t, a, d, h1⟩ := hc; cases h1
  | func f => obtain ⟨t, a, d, h1⟩ := hc; cases h1
  | lambda p b _ _ => obtain ⟨t, a, d, h1⟩ := hc; cases h1

/-- When every remaining element evaluates to itself and leaves the environment
alone, the loop of `eval` copies the remaining elements to the end of `accum`. -/
theorem eval_loop_fixed (ev : Obj → Obj → Res (Obj × Obj)) (env d : Obj)
    (hd : ∀ e ∈ elems d, ev e env = ok (e, env)) (x : Obj) (xs : List Obj) :
    eval_loop ev d (list (x :: xs)) env = ok (list (x :: (xs ++ elems d)), env) := by
  induction d generalizing xs with
  | cons t a d _ ihd =>
      have ha := hd a (by simp [elems])
      have hrest : ∀ e ∈ elems d, ev e env = ok (e, env) :=
        fun e he => hd e (by simp [elems, he])
      rw [eval_loop, ha]
      simp only [ok_bind, append_list, elems]
      rw [ihd hrest]
      simp
  | null => simp [eval_loop, elems]
  | atom n => simp [eval_loop, elems]
  | func f => simp [eval_loop, elems]
  | lambda p b _ _ => simp [eval_loop, elems]

/-- An inert literal evaluates to itself in the environment of `init_env`, and so
does each of its elements, within some recursion bound and every larger one. -/
theorem eval_inert (L : Obj) (h : inert L = true) :
    (∃ k, ∀ j, eval (k + j) L init_env = ok (L, init_env))
    ∧ (∃ k, ∀ j, ∀ e ∈ elems L, eval (k + j) e init_env = ok (e, init_env)) := by
  induction L with
  | null => simp [inert] at h
  | func f => simp [inert] at h
  | lambda p b _ _ => simp [inert] at h
  | atom n =>
      refine ⟨⟨1, fun j => ?_⟩, ⟨0, fun j e he => by simp [elems] at he⟩⟩
      simp only [inert, Option.isNone_iff_eq_none] at h
      rw [Nat.add_comm, eval_atom, init_env_eq, lookup_envOf, h]
      rfl
  | cons t a d iha ihd =>
      have hin : inert a = true ∧ (d = null ∨ inert d = true) := by
        cases t with
        | true => simp [inert] at h
        | false =>
            cases d with
            | null => exact ⟨by simpa [inert] using h, Or.inl rfl⟩
            | cons t2 b d2 =>
                simp only [inert, Bool.and_eq_true] at h
                exact ⟨h.1, Or.inr h.2⟩
            | atom n => simp [inert] at h
            | func f => simp [inert] at h
            | lambda p b => simp [inert] at h
      obtain ⟨ka, hka⟩ := (iha hin.1).1
      have hde : ∃ kd, ∀ j, ∀ e ∈ elems d, eval (kd + j) e init_env = ok (e, init_env) := by
        rcases hin.2 with hd | hd
        · exact ⟨0, fun j e he => by simp [hd, elems] at he⟩
        · exact (ihd hd).2
      obtain ⟨kd, hkd⟩ := hde
      have hall : ∀ j, ∀ e ∈ elems (cons t a d),
          eval (ka + kd + j) e init_env = ok (e, init_env) := by
        intro j e he
        simp only [elems, List.mem_cons] at he
        rcases he with he | he
        · rw [he, Nat.add_assoc]; exact hka _
        · rw [Nat.add_comm ka kd, Nat.add_assoc]; exact hkd _ e he
      refine ⟨⟨ka + kd + 1, fun j => ?_⟩, ⟨ka + kd, hall⟩⟩
      have hfuel : ka + kd + 1 + j = (ka + kd + j) + 1 := by omega
      have hnull : a ≠ null := by
        intro ha; rw [ha] at hin; simp [inert] at hin
      have hlam : a ≠ atom "LAMBDA" := by
        intro ha; rw [ha] at hin
        exact absurd hin.1 (by decide)
      have hloop := eval_loop_fixed (eval (ka + kd + j)) init_env d
        (fun e he => hall j e (by simp [elems, he])) a []
      have hself : list (a :: elems d) = cons t a d :=
        list_elems_of_inert (cons t a d) h ⟨t, a, d, rfl⟩
      simp only [list, List.nil_append] at hloop hself
      rw [hfuel, eval_cons, if_neg hnull, if_neg hlam, hall j a (by simp [elems])]
      simp only [ok_bind, hloop, hself, eval_fn, first, second]
      cases a with
      | null => exact absurd rfl hnull
      | atom n => rfl
      | cons t2 b d2 => rfl
      | func f => simp [inert] at hin
      | lambda p b => simp [inert] at hin

/-! ## Evaluation without closures and without `COND` ends -/

theorem Ends.of_ok {α : Type} {P : α → Prop} {a : α} (h : P a) : Ends (ok a) P :=
  ⟨by simp, fun b hb => by cases hb; exact h⟩

theorem Ends.of_undef {α : Type} {P : α → Prop} : Ends (undef : Res α) P :=
  ⟨by simp, fun b hb => by cases hb⟩

theorem Ends.of_exit {α : Type} {P : α → Prop} {c : Nat} : Ends (exit c : Res α) P :=
  ⟨by simp, fun b hb => by cases hb⟩

theorem Ends.bind {α β : Type} {x : Res α} {f : α → Res β} {P : α → Prop} {Q : β → Prop}
    (hx : Ends x P) (hf : ∀ a, P a → Ends (f a) Q) : Ends (x >>= f) Q := by
  cases x with
  | ok a => exact hf a (hx.2 a rfl)
  | exit c => exact Ends.of_exit
  | undef => exact Ends.of_undef
  | timeout => exact absurd rfl hx.1

theorem first_ends {x : Obj} (h : tame x = true) : Ends (first x) (fun a => tame a = true) := by
  cases x with
  | cons t a d =>
      simp only [tame, Bool.and_eq_true] at h
      exact Ends.of_ok h.1
  | _ => exact Ends.of_undef

theorem second_ends {x : Obj} (h : tame x = true) : Ends (second x) (fun a => tame a = true) := by
  cases x with
  | cons t a d =>
      simp only [tame, Bool.and_eq_true] at h
      exact Ends.of_ok h.2
  | _ => exact Ends.of_undef

theorem name_ends (x : Obj) : Ends (name x) (fun _ => True) := by
  cases x with
  | null => exact Ends.of_undef
  | atom n => exact Ends.of_ok trivial
  | _ => exact Ends.of_exit

theorem append_ends (l v : Obj) (hl : tame l = true) (hv : tame v = true) :
    Ends (append l v) (fun a => tame a = true) := by
  induction l with
  | cons t a d _ ihd =>
      simp only [tame, Bool.and_eq_true] at hl
      cases d with
      | null => exact Ends.of_ok (by simp [tame, hl.1, hv])
      | cons t2 b d2 =>
          rw [append_cons_cons]
          exact Ends.bind (ihd hl.2) (fun d1 h1 => Ends.of_ok (by simp [tame, hl.1, h1]))
      | atom n => exact Ends.of_undef
      | func f => exact Ends.of_undef
      | lambda p b => exact Ends.of_undef
  | _ => exact Ends.of_undef

theorem fn_cons_loop_ends (d l : Obj) (hd : tame d = true) (hl : tame l = true) :
    Ends (fn_cons_loop d l) (fun a => tame a = true) := by
  induction d generalizing l with
  | cons t a d _ ihd =>
      simp only [tame, Bool.and_eq_true] at hd
      rw [fn_cons_loop]
      exact Ends.bind (append_ends l a hl hd.1) (fun l1 h1 => ihd l1 hd.2 h1)
  | null => exact Ends.of_ok hl
  | atom n => exact Ends.of_ok hl
  | func f => exact Ends.of_ok hl
  | lambda p b _ _ => exact Ends.of_ok hl

theorem lookup_ne_timeout (n : String) (env : Obj) : lookup n env ≠ timeout := by
  induction env with
  | cons t a d _ ihd =>
      rw [lookup]
      cases a with
      | cons t2 b d2 =>
          cases d2 with
          | cons t3 c d3 =>
              cases b with
              | atom m =>
                  simp only [first, second, name, ok_bind]
                  by_cases h : m = n
                  · simp [h]
                  · simp [h, ihd]
              | null => simp [first, second, name]
              | cons _ _ _ => simp [first, second, name]
              | func _ => simp [first, second, name]
              | lambda _ _ => simp [first, second, name]
          | _ => simp [first, second]
      | _ => simp [first]
  | _ => simp [lookup]

/-- The three ways `lookup` can treat the first association of an environment: it
matches, it does not match, or reading it fails. -/
theorem lookup_cons_cases (n : String) (t : Bool) (a : Obj) :
    (∃ val, ∀ d, lookup n (cons t a d) = ok val)
    ∨ (∀ d, lookup n (cons t a d) = lookup n d)
    ∨ (∃ r, (∀ d, lookup n (cons t a d) = r) ∧ ∀ v, r ≠ ok v) := by
  cases a with
  | cons t2 b d2 =>
      cases d2 with
      | cons t3 c d3 =>
          cases b with
          | atom m =>
              by_cases h : m = n
              · exact Or.inl ⟨c, fun d => by simp [lookup, first, second, name, h]⟩
              · exact Or.inr (Or.inl (fun d => by simp [lookup, first, second, name, h]))
          | null =>
              exact Or.inr (Or.inr ⟨undef, fun d => by simp [lookup, first, second, name], by simp⟩)
          | cons _ _ _ =>
              exact Or.inr (Or.inr ⟨exit 1, fun d => by simp [lookup, first, second, name], by simp⟩)
          | func _ =>
              exact Or.inr (Or.inr ⟨exit 1, fun d => by simp [lookup, first, second, name], by simp⟩)
          | lambda _ _ =>
              exact Or.inr (Or.inr ⟨exit 1, fun d => by simp [lookup, first, second, name], by simp⟩)
      | null => exact Or.inr (Or.inr ⟨undef, fun d => by simp [lookup, first, second], by simp⟩)
      | atom _ => exact Or.inr (Or.inr ⟨undef, fun d => by simp [lookup, first, second], by simp⟩)
      | func _ => exact Or.inr (Or.inr ⟨undef, fun d => by simp [lookup, first, second], by simp⟩)
      | lambda _ _ =>
          exact Or.inr (Or.inr ⟨undef, fun d => by simp [lookup, first, second], by simp⟩)
  | null => exact Or.inr (Or.inr ⟨undef, fun d => by simp [lookup, first], by simp⟩)
  | atom _ => exact Or.inr (Or.inr ⟨undef, fun d => by simp [lookup, first], by simp⟩)
  | func _ => exact Or.inr (Or.inr ⟨undef, fun d => by simp [lookup, first], by simp⟩)
  | lambda _ _ => exact Or.inr (Or.inr ⟨undef, fun d => by simp [lookup, first], by simp⟩)

/-- What `lookup` finds after `append` stored one more association. -/
theorem lookup_append (n m : String) (w : Obj) (env env1 v : Obj)
    (happ : append env (cons false (atom m) (cons false w null)) = ok env1)
    (hl : lookup n env1 = ok v) : v = w ∨ lookup n env = ok v := by
  induction env generalizing env1 with
  | cons t a d _ ihd =>
      cases d with
      | null =>
          simp only [append, ok.injEq] at happ
          subst happ
          rcases lookup_cons_cases n t a with ⟨val, h⟩ | h | ⟨r, h, hr⟩
          · rw [h] at hl ⊢; exact Or.inr hl
          · rw [h] at hl
            by_cases hm : m = n
            · simp [lookup, first, second, name, hm] at hl
              exact Or.inl hl.symm
            · simp [lookup, first, second, name, hm] at hl
              rw [h]
              exact Or.inr (by rw [← hl]; rfl)
          · rw [h] at hl; exact absurd hl (hr v)
      | cons t2 b d2 =>
          rw [append_cons_cons] at happ
          cases hd : append (cons t2 b d2) (cons false (atom m) (cons false w null)) with
          | ok d1 =>
              rw [hd] at happ
              simp only [ok_bind, ok.injEq] at happ
              subst happ
              rcases lookup_cons_cases n t a with ⟨val, h⟩ | h | ⟨r, h, hr⟩
              · rw [h] at hl ⊢; exact Or.inr hl
              · rw [h] at hl ⊢
                exact ihd d1 hd hl
              · rw [h] at hl; exact absurd hl (hr v)
          | exit c => rw [hd] at happ; cases happ
          | undef => rw [hd] at happ; cases happ
          | timeout => rw [hd] at happ; cases happ
      | atom _ => simp [append] at happ
      | func _ => simp [append] at happ
      | lambda _ _ => simp [append] at happ
  | null => simp [append] at happ
  | atom _ => simp [append] at happ
  | func _ => simp [append] at happ
  | lambda _ _ _ _ => simp [append] at happ

theorem append_ne_timeout (l v : Obj) : append l v ≠ timeout := by
  induction l with
  | cons t a d _ ihd =>
      cases d with
      | null => simp [append]
      | cons t2 b d2 =>
          rw [append_cons_cons]
          cases h : append (cons t2 b d2) v with
          | timeout => exact absurd h ihd
          | ok d1 => simp
          | exit c => simp
          | undef => simp
      | atom n => simp [append]
      | func f => simp [append]
      | lambda p b => simp [append]
  | _ => simp [append]

theorem fn_label_ends (args env : Obj) (ha : tame args = true) (he : TameEnv env) :
    Ends (fn_label args env) TameOut := by
  unfold fn_label
  refine Ends.bind (first_ends ha) (fun a _ => ?_)
  refine Ends.bind (name_ends a) (fun m _ => ?_)
  refine Ends.bind (second_ends ha) (fun x hx => ?_)
  refine Ends.bind (first_ends hx) (fun w hw => ?_)
  cases happ : append env (cons false (atom m) (cons false w null)) with
  | ok env1 =>
      refine Ends.of_ok ⟨rfl, ?_⟩
      intro n v hn1 hn2 hl
      rcases lookup_append n m w env env1 v happ hl with h | h
      · rw [h]; exact hw
      · exact he n v hn1 hn2 h
  | exit c => exact Ends.of_exit
  | undef => exact Ends.of_undef
  | timeout => exact absurd happ (append_ne_timeout _ _)

theorem fn_quote_ends (args env : Obj) (ha : tame args = true) (he : TameEnv env) :
    Ends (fn_quote args env) TameOut := by
  unfold fn_quote
  exact Ends.bind (first_ends ha) (fun a h => Ends.of_ok ⟨h, he⟩)

theorem fn_first_ends (args env : Obj) (ha : tame args = true) (he : TameEnv env) :
    Ends (fn_first args env) TameOut := by
  unfold fn_first
  refine Ends.bind (first_ends ha) (fun a h => ?_)
  exact Ends.bind (first_ends h) (fun r hr => Ends.of_ok ⟨hr, he⟩)

theorem fn_second_ends (args env : Obj) (ha : tame args = true) (he : TameEnv env) :
    Ends (fn_second args env) TameOut := by
  unfold fn_second
  refine Ends.bind (first_ends ha) (fun a h => ?_)
  exact Ends.bind (second_ends h) (fun r hr => Ends.of_ok ⟨hr, he⟩)

theorem fn_cons_ends (args env : Obj) (ha : tame args = true) (he : TameEnv env) :
    Ends (fn_cons args env) TameOut := by
  unfold fn_cons
  refine Ends.bind (first_ends ha) (fun a h => ?_)
  refine Ends.bind (second_ends ha) (fun x hx => ?_)
  refine Ends.bind (first_ends hx) (fun args1 h1 => ?_)
  refine Ends.bind (fn_cons_loop_ends args1 (cons false a null) h1 (by simp [tame, h]))
    (fun r hr => Ends.of_ok ⟨hr, he⟩)

theorem fn_equal_ends (args env : Obj) (ha : tame args = true) (he : TameEnv env) :
    Ends (fn_equal args env) TameOut := by
  unfold fn_equal
  refine Ends.bind (first_ends ha) (fun a _ => ?_)
  refine Ends.bind (second_ends ha) (fun x hx => ?_)
  refine Ends.bind (first_ends hx) (fun b _ => ?_)
  refine Ends.bind (name_ends a) (fun na _ => ?_)
  refine Ends.bind (name_ends b) (fun nb _ => ?_)
  by_cases h : na = nb
  · simp only [h, if_true]; exact Ends.of_ok ⟨rfl, he⟩
  · simp only [h, if_false]; exact Ends.of_ok ⟨rfl, he⟩

theorem fn_atom_ends (args env : Obj) (ha : tame args = true) (he : TameEnv env) :
    Ends (fn_atom args env) TameOut := by
  unfold fn_atom
  refine Ends.bind (first_ends ha) (fun a _ => ?_)
  cases a with
  | null => exact Ends.of_undef
  | atom n => exact Ends.of_ok ⟨rfl, he⟩
  | cons _ _ _ => exact Ends.of_ok ⟨rfl, he⟩
  | func _ => exact Ends.of_ok ⟨rfl, he⟩
  | lambda _ _ => exact Ends.of_ok ⟨rfl, he⟩

/-- Applying a list whose cells hold no closure, `COND` or `LAMBDA` built-in ends,
whatever the evaluator passed along is. -/
theorem eval_fn_ends (ev : Obj → Obj → Res (Obj × Obj)) (sexp env : Obj)
    (hs : tame sexp = true) (he : TameEnv env) : Ends (eval_fn ev sexp env) TameOut := by
  unfold eval_fn
  refine Ends.bind (first_ends hs) (fun symbol hsym => ?_)
  refine Ends.bind (second_ends hs) (fun args hargs => ?_)
  cases symbol with
  | null => exact Ends.of_undef
  | atom n => exact Ends.of_ok ⟨hs, he⟩
  | cons _ _ _ => exact Ends.of_ok ⟨hs, he⟩
  | lambda p b => simp [tame] at hsym
  | func f =>
      cases f with
      | quote => exact fn_quote_ends args env hargs he
      | first => exact fn_first_ends args env hargs he
      | second => exact fn_second_ends args env hargs he
      | cons => exact fn_cons_ends args env hargs he
      | equal => exact fn_equal_ends args env hargs he
      | atom => exact fn_atom_ends args env hargs he
      | label => exact fn_label_ends args env hargs he
      | cond => simp [tame] at hsym
      | lambda => simp [tame] at hsym

/-- Evaluation of a plain expression in a tame environment ends, and so does the
loop of `eval` over the cells of a plain expression. -/
theorem eval_plain_ends (e : Obj) (hp : plain e = true) :
    (∀ env, TameEnv env → ∃ k, Ends (eval k e env) TameOut)
    ∧ (∀ accum env, tame accum = true → TameEnv env →
        ∃ k, ∀ j, Ends (eval_loop (eval (k + j)) e accum env) TameOut) := by
  induction e with
  | func f => simp [plain] at hp
  | lambda p b _ _ => simp [plain] at hp
  | null =>
      refine ⟨fun env he => ⟨1, Ends.of_ok ⟨rfl, he⟩⟩, fun accum env ha he => ⟨0, fun j => ?_⟩⟩
      exact Ends.of_ok ⟨ha, he⟩
  | atom n =>
      simp only [plain, Bool.and_eq_true, decide_eq_true_eq] at hp
      refine ⟨fun env he => ⟨1, ?_⟩, fun accum env ha he => ⟨0, fun j => Ends.of_ok ⟨ha, he⟩⟩⟩
      rw [eval_atom]
      cases hl : lookup n env with
      | ok val =>
          simp only [ok_bind]
          by_cases hv : val = null
          · simp only [hv, if_true]; exact Ends.of_ok ⟨rfl, he⟩
          · simp only [hv, if_false]; exact Ends.of_ok ⟨he n val hp.1 hp.2 hl, he⟩
      | exit c => exact Ends.of_exit
      | undef => exact Ends.of_undef
      | timeout => exact absurd hl (lookup_ne_timeout n env)
  | cons t a d iha ihd =>
      simp only [plain, Bool.and_eq_true] at hp
      have hA := (iha hp.1).1
      have hD := (ihd hp.2).2
      have hloop : ∀ accum env, tame accum = true → TameEnv env →
          ∃ k, ∀ j, Ends (eval_loop (eval (k + j)) (cons t a d) accum env) TameOut := by
        intro accum env hacc he
        obtain ⟨ka, hka⟩ := hA env he
        cases hr : eval ka a env with
        | ok ve =>
            obtain ⟨v, env1⟩ := ve
            have hve : TameOut (v, env1) := hka.2 _ hr
            cases hap : append accum v with
            | ok accum1 =>
                have hacc1 : tame accum1 = true := (append_ends accum v hacc hve.1).2 _ hap
                obtain ⟨kd, hkd⟩ := hD accum1 env1 hacc1 hve.2
                refine ⟨ka + kd, fun j => ?_⟩
                have h1 : eval (ka + kd + j) a env = ok (v, env1) := by
                  rw [Nat.add_assoc, eval_add_stable ka _ a env hka.1, hr]
                have h2 := hkd (ka + j)
                have hf : kd + (ka + j) = ka + kd + j := by omega
                rw [hf] at h2
                rw [eval_loop, h1]
                simp only [ok_bind, hap]
                exact h2
            | exit c =>
                refine ⟨ka, fun j => ?_⟩
                rw [eval_loop, eval_add_stable ka _ a env hka.1, hr]
                simp only [ok_bind, hap]
                exact Ends.of_exit
            | undef =>
                refine ⟨ka, fun j => ?_⟩
                rw [eval_loop, eval_add_stable ka _ a env hka.1, hr]
                simp only [ok_bind, hap]
                exact Ends.of_undef
            | timeout => exact absurd hap (append_ne_timeout _ _)
        | exit c =>
            refine ⟨ka, fun j => ?_⟩
            rw [eval_loop, eval_add_stable ka _ a env hka.1, hr]
            exact Ends.of_exit
        | undef =>
            refine ⟨ka, fun j => ?_⟩
            rw [eval_loop, eval_add_stable ka _ a env hka.1, hr]
            exact Ends.of_undef
        | timeout => exact absurd hr hka.1
      refine ⟨?_, hloop⟩
      intro env he
      by_cases hnull : a = null
      · exact ⟨1, by rw [eval_cons, if_pos hnull]; exact Ends.of_undef⟩
      · have hlam : a ≠ atom "LAMBDA" := by
          intro h; rw [h] at hp; simp [plain] at hp
        obtain ⟨ka, hka⟩ := hA env he
        cases hr : eval ka a env with
        | ok ve =>
            obtain ⟨v, env1⟩ := ve
            have hve : TameOut (v, env1) := hka.2 _ hr
            obtain ⟨kd, hkd⟩ := (ihd hp.2).2 (cons false v null) env1
              (by simp [tame]; exact hve.1) hve.2
            refine ⟨ka + kd + 1, ?_⟩
            rw [eval_cons, if_neg hnull, if_neg hlam]
            have h1 : eval (ka + kd) a env = ok (v, env1) := by
              rw [eval_add_stable ka _ a env hka.1, hr]
            have h2 := hkd ka
            have hf : kd + ka = ka + kd := by omega
            rw [hf] at h2
            rw [h1]
            simp only [ok_bind]
            refine Ends.bind h2 (fun ae hae => ?_)
            obtain ⟨accum, env2⟩ := ae
            exact eval_fn_ends _ accum env2 hae.1 hae.2
        | exit c =>
            refine ⟨ka + 1, ?_⟩
            rw [eval_cons, if_neg hnull, if_neg hlam, hr]
            exact Ends.of_exit
        | undef =>
            refine ⟨ka + 1, ?_⟩
            rw [eval_cons, if_neg hnull, if_neg hlam, hr]
            exact Ends.of_undef
        | timeout => exact absurd hr hka.1

theorem tameEnv_envOf (bs : List (String × Obj))
    (h : ∀ b ∈ bs, b.1 = "LAMBDA" ∨ b.1 = "COND" ∨ tame b.2 = true) : TameEnv (envOf bs) := by
  intro n v hn1 hn2 hl
  rw [lookup_envOf] at hl
  simp only [ok.injEq] at hl
  subst hl
  induction bs with
  | nil => rfl
  | cons b bs ih =>
      obtain ⟨m, w⟩ := b
      simp only [firstValue]
      by_cases hm : m = n
      · simp only [hm, if_true, Option.getD_some]
        rcases h (m, w) (by simp) with h1 | h1 | h1
        · exact absurd (hm ▸ h1) hn1
        · exact absurd (hm ▸ h1) hn2
        · exact h1
      · simp only [hm, if_false]
        exact ih (fun b hb => h b (by simp [hb]))

theorem tameEnv_init_env : TameEnv init_env := by
  rw [init_env_eq]
  exact tameEnv_envOf initBindings (by decide)

theorem loop_never_returns (k : Nat) :
    eval k (list [atom "F", atom "A"]) (envOf (initBindings ++ [("F", closureLoop)]))
      = timeout := by
  induction k with
  | zero => rfl
  | succ k ih =>
      cases k with
      | zero => rfl
      | succ k =>
          have hnull : atom "F" ≠ null := by decide
          have hlam : atom "F" ≠ atom "LAMBDA" := by decide
          have hF : eval (k + 1) (atom "F") (envOf (initBindings ++ [("F", closureLoop)]))
              = ok (closureLoop, envOf (initBindings ++ [("F", closureLoop)])) := rfl
          have hA : eval (k + 1) (atom "A") (envOf (initBindings ++ [("F", closureLoop)]))
              = ok (atom "A", envOf (initBindings ++ [("F", closureLoop)])) := rfl
          have hi : interleave (list [atom "X"]) (list [atom "A"])
              = ok (list [list [atom "X", atom "A"]]) := rfl
          have hr : replace_atom (list [atom "F", atom "X"]) (list [list [atom "X", atom "A"]])
              = ok (list [atom "F", atom "A"]) := by decide
          simp only [list] at ih hi hr ⊢
          generalize envOf (initBindings ++ [("F", closureLoop)]) = envF at hF hA ih ⊢
          rw [eval_cons, if_neg hnull, if_neg hlam, hF]
          simp only [ok_bind, eval_loop, hA, append, closureLoop, eval_fn, first, second, fn_lambda,
            list, hi, hr, ih]

/-! ## `COND` and `LABEL` alone can make `eval` run on for ever -/

theorem cond_loop_reached :
    eval 5 (list [atom "LABEL", atom "P", list [atom "C", list [list [atom "P"], atom "A"]]])
        init_env = ok (tee, envOf (initBindings ++ [("P", condLoopExpr)]))
    ∧ eval 2 (list [atom "LABEL", atom "C", atom "COND"])
        (envOf (initBindings ++ [("P", condLoopExpr)])) = ok (tee, condLoopEnv) := by
  decide

theorem cond_loop_step (k : Nat) (h : eval k condLoopExpr condLoopEnv = timeout) :
    eval (k + 2) condLoopExpr condLoopEnv = timeout := by
  cases k with
  | zero => rfl
  | succ k =>
      cases k with
      | zero => rfl
      | succ k =>
          have hnull : atom "C" ≠ null := by decide
          have hlam : atom "C" ≠ atom "LAMBDA" := by decide
          have hC : eval (k + 3) (atom "C") condLoopEnv = ok (func .cond, condLoopEnv) := rfl
          have hArg : eval (k + 3) (list [list [atom "P"], atom "A"]) condLoopEnv
              = ok (list [list [condLoopExpr], atom "A"], condLoopEnv) := rfl
          have hn2 : condLoopExpr ≠ null := by decide
          have hl2 : condLoopExpr ≠ atom "LAMBDA" := by decide
          have hn3 : list [condLoopExpr] ≠ null := by decide
          have hinner : eval (k + 3) (list [condLoopExpr]) condLoopEnv = timeout := by
            simp only [list]
            rw [eval_cons, if_neg hn2, if_neg hl2, h]
            rfl
          generalize condLoopEnv = env at h hC hArg hinner ⊢
          have hexpr : condLoopExpr = cons false (atom "C")
              (cons false (list [list [atom "P"], atom "A"]) null) := rfl
          rw [hexpr, eval_cons, if_neg hnull, if_neg hlam, hC]
          simp only [list] at hArg hinner hn3
          simp only [ok_bind, eval_loop, hArg, append, eval_fn, first, second, callFn, fn_cond,
            list, if_neg hn3, hinner, timeout_bind]

theorem cond_loop_never_returns (k : Nat) :
    eval k condLoopExpr condLoopEnv = timeout
    ∧ eval (k + 1) condLoopExpr condLoopEnv = timeout := by
  induction k with
  | zero => exact ⟨rfl, rfl⟩
  | succ k ih => exact ⟨ih.2, cond_loop_step k ih.1⟩

/-! ## The loop of `eval` as a left-to-right evaluation -/

theorem eval_loop_evalSeq (ev : Obj → Obj → Res (Obj × Obj)) (d x : Obj) (xs : List Obj)
    (env : Obj) :
    eval_loop ev d (list (x :: xs)) env
      = (evalSeq ev (elems d) env >>= fun r => ok (list (x :: (xs ++ r.1)), r.2)) := by
  induction d generalizing xs env with
  | cons t a d _ ihd =>
      simp only [eval_loop, elems, evalSeq]
      cases h : ev a env with
      | ok ve =>
          obtain ⟨v, env1⟩ := ve
          simp only [ok_bind, append_list, ihd]
          cases h2 : evalSeq ev (elems d) env1 with
          | ok r => simp
          | exit c => rfl
          | undef => rfl
          | timeout => rfl
      | exit c => rfl
      | undef => rfl
      | timeout => rfl
  | null => simp [eval_loop, elems, evalSeq]
  | atom n => simp [eval_loop, elems, evalSeq]
  | func f => simp [eval_loop, elems, evalSeq]
  | lambda p b _ _ => simp [eval_loop, elems, evalSeq]

theorem evalSeq_length (ev : Obj → Obj → Res (Obj × Obj)) (xs : List Obj) (env : Obj)
    (vs : List Obj) (env1 : Obj) (h : evalSeq ev xs env = ok (vs, env1)) :
    vs.length = xs.length := by
  induction xs generalizing env vs with
  | nil => simp [evalSeq] at h; simp [h.1.symm]
  | cons x xs ih =>
      simp only [evalSeq] at h
      cases h1 : ev x env with
      | ok ve =>
          obtain ⟨v, e1⟩ := ve
          rw [h1] at h
          simp only [ok_bind] at h
          cases h2 : evalSeq ev xs e1 with
          | ok r =>
              obtain ⟨ws, e2⟩ := r
              rw [h2] at h
              simp only [ok_bind, ok.injEq, Prod.mk.injEq] at h
              obtain ⟨hvs, he⟩ := h
              subst he
              rw [← hvs]
              simp [ih e1 ws h2]
          | exit c => rw [h2] at h; cases h
          | undef => rw [h2] at h; cases h
          | timeout => rw [h2] at h; cases h
      | exit c => rw [h1] at h; cases h
      | undef => rw [h1] at h; cases h
      | timeout => rw [h1] at h; cases h

/-! ## The environment only grows -/

theorem growsFrom_ok (bs : List (String × Obj)) (v : Obj) : GrowsFrom bs (ok (v, envOf bs)) := by
  intro w env1 h
  simp only [ok.injEq, Prod.mk.injEq] at h
  exact ⟨[], by simp [h.2.symm]⟩

theorem growsFrom_bind {α : Type} {bs : List (String × Obj)} {x : Res α}
    {f : α → Res (Obj × Obj)} (hf : ∀ a, x = ok a → GrowsFrom bs (f a)) :
    GrowsFrom bs (x >>= f) := by
  intro v env1 h
  cases hx : x with
  | ok a => rw [hx] at h; exact hf a hx v env1 h
  | exit c => rw [hx] at h; cases h
  | undef => rw [hx] at h; cases h
  | timeout => rw [hx] at h; cases h

theorem growsFrom_trans {bs extra : List (String × Obj)} {r : Res (Obj × Obj)}
    (h : GrowsFrom (bs ++ extra) r) : GrowsFrom bs r := by
  intro v env1 hr
  obtain ⟨more, hm⟩ := h v env1 hr
  exact ⟨extra ++ more, by rw [hm, List.append_assoc]⟩

theorem growsFrom_bind_env {bs : List (String × Obj)} {x : Res (Obj × Obj)}
    {f : Obj × Obj → Res (Obj × Obj)} (hx : GrowsFrom bs x)
    (hf : ∀ v extra, x = ok (v, envOf (bs ++ extra)) →
      GrowsFrom (bs ++ extra) (f (v, envOf (bs ++ extra)))) :
    GrowsFrom bs (x >>= f) := by
  refine growsFrom_bind (fun a ha => ?_)
  obtain ⟨v, env1⟩ := a
  obtain ⟨extra, he⟩ := hx v env1 ha
  subst he
  exact growsFrom_trans (hf v extra ha)

theorem fn_label_grows (args : Obj) (bs : List (String × Obj)) :
    GrowsFrom bs (fn_label args (envOf bs)) := by
  unfold fn_label
  refine growsFrom_bind (fun a _ => growsFrom_bind (fun n _ => growsFrom_bind (fun x _ =>
    growsFrom_bind (fun w _ => ?_))))
  by_cases hbs : bs = []
  · subst hbs
    intro v env1 h
    simp [envOf, append] at h
  · have happ := append_envOf bs hbs n w
    simp only [assoc] at happ
    rw [happ]
    intro v env1 h
    simp only [ok_bind, ok.injEq, Prod.mk.injEq] at h
    exact ⟨[(n, w)], h.2.symm⟩

theorem fn_cond_grows {ev : Obj → Obj → Res (Obj × Obj)} (hev : Grows ev) (args : Obj) :
    ∀ bs, GrowsFrom bs (fn_cond ev args (envOf bs)) := by
  induction args with
  | cons t a d _ ihd =>
      intro bs
      simp only [fn_cond]
      refine growsFrom_bind (fun t1 _ => ?_)
      refine growsFrom_bind_env ?_ (fun pred extra _ => ?_)
      · by_cases ht : t1 = null
        · simp only [ht, if_true]; exact growsFrom_ok bs nil
        · simp only [ht, if_false]; exact hev t1 bs
      · refine growsFrom_bind (fun s _ => growsFrom_bind (fun ret _ => ?_))
        by_cases hp : isNilCell pred = true
        · simp only [hp, if_true]; exact ihd _
        · simp only [hp]; exact hev ret _
  | null => intro bs; exact growsFrom_ok bs nil
  | atom n => intro bs; exact growsFrom_ok bs nil
  | func f => intro bs; exact growsFrom_ok bs nil
  | lambda p b _ _ => intro bs; exact growsFrom_ok bs nil

theorem fn_lambda_grows {ev : Obj → Obj → Res (Obj × Obj)} (hev : Grows ev) (args : Obj)
    (bs : List (String × Obj)) : GrowsFrom bs (fn_lambda ev args (envOf bs)) := by
  unfold fn_lambda
  refine growsFrom_bind (fun lam _ => growsFrom_bind (fun args1 _ => ?_))
  cases lam with
  | lambda p b =>
      exact growsFrom_bind (fun l _ => growsFrom_bind (fun s _ => hev s bs))
  | _ => intro v env1 h; cases h

theorem callFn_grows {ev : Obj → Obj → Res (Obj × Obj)} (hev : Grows ev) (fn : Fn) (args : Obj)
    (bs : List (String × Obj)) : GrowsFrom bs (callFn ev fn args (envOf bs)) := by
  cases fn with
  | cond => exact fn_cond_grows hev args bs
  | lambda => exact fn_lambda_grows hev args bs
  | label => exact fn_label_grows args bs
  | quote =>
      simp only [callFn, fn_quote]
      exact growsFrom_bind (fun a _ => growsFrom_ok bs a)
  | first =>
      simp only [callFn, fn_first]
      exact growsFrom_bind (fun a _ => growsFrom_bind (fun r _ => growsFrom_ok bs r))
  | second =>
      simp only [callFn, fn_second]
      exact growsFrom_bind (fun a _ => growsFrom_bind (fun r _ => growsFrom_ok bs r))
  | cons =>
      simp only [callFn, fn_cons]
      exact growsFrom_bind (fun a _ => growsFrom_bind (fun x _ => growsFrom_bind (fun y _ =>
        growsFrom_bind (fun r _ => growsFrom_ok bs r))))
  | equal =>
      simp only [callFn, fn_equal]
      refine growsFrom_bind (fun a _ => growsFrom_bind (fun x _ => growsFrom_bind (fun b _ =>
        growsFrom_bind (fun na _ => growsFrom_bind (fun nb _ => ?_)))))
      by_cases h : na = nb
      · simp only [h, if_true]; exact growsFrom_ok bs tee
      · simp only [h, if_false]; exact growsFrom_ok bs nil
  | atom =>
      simp only [callFn, fn_atom]
      refine growsFrom_bind (fun a _ => ?_)
      cases a with
      | null => intro v env1 h; cases h
      | atom n => exact growsFrom_ok bs tee
      | cons _ _ _ => exact growsFrom_ok bs nil
      | func _ => exact growsFrom_ok bs nil
      | lambda _ _ => exact growsFrom_ok bs nil

theorem eval_fn_grows {ev : Obj → Obj → Res (Obj × Obj)} (hev : Grows ev) (sexp : Obj)
    (bs : List (String × Obj)) : GrowsFrom bs (eval_fn ev sexp (envOf bs)) := by
  unfold eval_fn
  refine growsFrom_bind (fun symbol _ => growsFrom_bind (fun args _ => ?_))
  cases symbol with
  | null => intro v env1 h; cases h
  | atom n => exact growsFrom_ok bs sexp
  | cons _ _ _ => exact growsFrom_ok bs sexp
  | lambda p b => exact fn_lambda_grows hev sexp bs
  | func f => exact callFn_grows hev f args bs

theorem eval_loop_grows {ev : Obj → Obj → Res (Obj × Obj)} (hev : Grows ev) (d : Obj) :
    ∀ accum bs, GrowsFrom bs (eval_loop ev d accum (envOf bs)) := by
  induction d with
  | cons t a d _ ihd =>
      intro accum bs
      simp only [eval_loop]
      refine growsFrom_bind_env (hev a bs) (fun v extra _ => ?_)
      exact growsFrom_bind (fun accum1 _ => ihd accum1 _)
  | null => intro accum bs; exact growsFrom_ok bs accum
  | atom n => intro accum bs; exact growsFrom_ok bs accum
  | func f => intro accum bs; exact growsFrom_ok bs accum
  | lambda p b _ _ => intro accum bs; exact growsFrom_ok bs accum

theorem eval_grows (k : Nat) : Grows (eval k) := by
  induction k with
  | zero => intro e bs v env1 h; rw [eval_zero] at h; cases h
  | succ k ih =>
      intro e bs
      cases e with
      | null => exact growsFrom_ok bs nil
      | func f => intro v env1 h; cases h
      | lambda p b => intro v env1 h; cases h
      | atom n =>
          rw [eval_atom]
          refine growsFrom_bind (fun val _ => ?_)
          by_cases hv : val = null
          · simp only [hv, if_true]; exact growsFrom_ok bs _
          · simp only [hv, if_false]; exact growsFrom_ok bs _
      | cons t a d =>
          rw [eval_cons]
          by_cases hnull : a = null
          · simp only [hnull, if_true]; intro v env1 h; cases h
          · by_cases hlam : a = atom "LAMBDA"
            · simp only [hlam, if_true, if_neg (show atom "LAMBDA" ≠ null by decide)]
              exact growsFrom_bind (fun x _ => growsFrom_bind (fun y _ =>
                growsFrom_bind (fun z _ => growsFrom_ok bs _)))
            · simp only [if_neg hnull, if_neg hlam]
              refine growsFrom_bind_env (ih a bs) (fun v extra _ => ?_)
              refine growsFrom_bind_env (eval_loop_grows ih d _ _) (fun accum extra2 _ => ?_)
              exact eval_fn_grows ih accum _

/-! ## Substitution of arguments for parameters -/

theorem interleave_loop_pairs (ps : List String) :
    ∀ (vs : List Obj) (x : Obj) (xs : List Obj), ps.length ≤ vs.length →
      interleave_loop (list (ps.map atom)) (list vs) (list (x :: xs))
        = ok (list (x :: (xs ++ pairs ps vs))) := by
  induction ps with
  | nil => intro vs x xs _; cases vs <;> simp [interleave_loop, list, pairs]
  | cons p ps ih =>
      intro vs x xs hlen
      cases vs with
      | nil => simp at hlen
      | cons v vs =>
          have h := ih vs x (xs ++ [list [atom p, v]]) (by simpa using hlen)
          simp only [List.map, list, interleave_loop, first, second, ok_bind, pairs] at h ⊢
          have ha := append_list x xs (cons false (atom p) (cons false v null))
          simp only [list] at ha
          rw [ha]
          simp only [ok_bind]
          rw [h]
          simp

theorem interleave_pairs (ps : List String) (vs : List Obj) (hps : ps ≠ [])
    (hlen : ps.length ≤ vs.length) :
    interleave (list (ps.map atom)) (list vs) = ok (list (pairs ps vs)) := by
  cases ps with
  | nil => exact absurd rfl hps
  | cons p ps =>
      cases vs with
      | nil => simp at hlen
      | cons v vs =>
          have h := interleave_loop_pairs ps vs (list [atom p, v]) [] (by simpa using hlen)
          simp only [List.map, list, interleave, first, second, ok_bind, pairs,
            List.nil_append] at h ⊢
          exact h

theorem replace_scan_pairs (n : String) (ps : List String) :
    ∀ vs : List Obj,
      replace_scan (atom n) (list (pairs ps vs)) = ok ((firstArg n ps vs).getD (atom n)) := by
  induction ps with
  | nil => intro vs; cases vs <;> simp [pairs, list, replace_scan, firstArg]
  | cons p ps ih =>
      intro vs
      cases vs with
      | nil => simp [pairs, list, replace_scan, firstArg]
      | cons v vs =>
          have h := ih vs
          simp only [pairs, list, replace_scan, first, second, name, ok_bind, firstArg] at h ⊢
          by_cases hp : p = n
          · simp [hp]
          · simp [hp, h]

theorem list_elems_substTail (ps : List String) (vs : List Obj) (d : Obj) :
    list (elems (substTail ps vs d)) = substTail ps vs d := by
  induction d with
  | cons t a d _ ihd => simp only [substTail, elems, list, ihd]
  | null => simp [substTail, elems, list]
  | atom n => simp [substTail, elems, list]
  | func f => simp [substTail, elems, list]
  | lambda p b _ _ => simp [substTail, elems, list]

theorem replace_atom_spec (ps : List String) (vs : List Obj) (body : Obj) :
    (isBody body = true →
      replace_atom body (list (pairs ps vs)) = ok (substSpec ps vs body))
    ∧ (isBodyTail body = true → ∀ (x : Obj) (xs : List Obj),
      replace_atom_loop body (list (pairs ps vs)) (list (x :: xs))
        = ok (list (x :: (xs ++ elems (substTail ps vs body))))) := by
  induction body with
  | null =>
      refine ⟨fun h => by simp [isBody] at h, fun _ x xs => ?_⟩
      simp [replace_atom_loop, substTail, elems]
  | atom n =>
      refine ⟨fun _ => ?_, fun h => by simp [isBodyTail] at h⟩
      rw [replace_atom, replace_scan_pairs, substSpec]
  | func f => exact ⟨fun h => by simp [isBody] at h, fun h => by simp [isBodyTail] at h⟩
  | lambda p b _ _ => exact ⟨fun h => by simp [isBody] at h, fun h => by simp [isBodyTail] at h⟩
  | cons t a d iha ihd =>
      constructor
      · intro h
        simp only [isBody, Bool.and_eq_true] at h
        have hl := (ihd.2 h.2) (substSpec ps vs a) []
        simp only [list, List.nil_append] at hl
        rw [replace_atom, iha.1 h.1]
        simp only [ok_bind, hl, substSpec]
        have hs := list_elems_substTail ps vs d
        rw [hs]
      · intro h x xs
        simp only [isBodyTail, Bool.and_eq_true] at h
        rw [replace_atom_loop, iha.1 h.1]
        simp only [ok_bind, append_list]
        rw [(ihd.2 h.2) x (xs ++ [substSpec ps vs a])]
        simp [substTail, elems]

/-! ## The reader -/

theorem token_loop_delim (c : Char) (inp buffer : List Char) (h : isDelim c = true) :
    token_loop (some c) inp buffer = ok (buffer, some c, inp) := by
  simp only [isDelim] at h
  cases inp <;> rw [token_loop, if_pos h]

theorem token_loop_step (c d : Char) (ds buffer : List Char) (h : isDelim c = false)
    (hl : buffer.length < 128) :
    token_loop (some c) (d :: ds) buffer = token_loop (some d) ds (buffer ++ [c]) := by
  simp only [isDelim] at h
  rw [token_loop, if_neg (by simp [h]), if_neg (by omega)]

theorem token_loop_run (more : List Char) :
    ∀ (c : Char) (inp buffer : List Char) (d : Char) (rest : List Char),
      (∀ x ∈ more, isDelim x = false) → isDelim d = true →
      buffer.length + more.length ≤ 128 → more ++ d :: rest = c :: inp →
      token_loop (some c) inp buffer = ok (buffer ++ more, some d, rest) := by
  induction more with
  | nil =>
      intro c inp buffer d rest _ hd _ heq
      simp only [List.nil_append, List.cons.injEq] at heq
      obtain ⟨h1, h2⟩ := heq
      subst h1 h2
      rw [token_loop_delim _ _ _ hd]
      simp
  | cons m more ih =>
      intro c inp buffer d rest hmore hd hlen heq
      simp only [List.cons_append, List.cons.injEq] at heq
      obtain ⟨h1, h2⟩ := heq
      subst h1
      have hm : isDelim m = false := hmore m (by simp)
      have hlt : buffer.length < 128 := by simp at hlen; omega
      cases more with
      | nil =>
          simp only [List.nil_append] at h2
          subst h2
          rw [token_loop_step _ _ _ _ hm hlt, token_loop_delim _ _ _ hd]
      | cons m2 more2 =>
          simp only [List.cons_append] at h2
          subst h2
          rw [token_loop_step _ _ _ _ hm hlt]
          have h := ih m2 (more2 ++ d :: rest) (buffer ++ [m]) d rest
            (fun x hx => hmore x (by simp at hx ⊢; right; exact hx)) hd
            (by simp at hlen ⊢; omega) (by simp)
          rw [h]
          simp

theorem token_loop_ok (inp : List Char) :
    ∀ (c : Char) (buffer buf1 : List Char) (ch : Option Char) (rest : List Char),
      token_loop (some c) inp buffer = ok (buf1, ch, rest) →
      ∃ more d, buf1 = buffer ++ more ∧ ch = some d ∧ c :: inp = more ++ d :: rest
        ∧ (∀ x ∈ more, isDelim x = false) ∧ isDelim d = true := by
  induction inp with
  | nil =>
      intro c buffer buf1 ch rest h
      rw [token_loop] at h
      by_cases hc : (isspace c || c = ')') = true
      · simp only [hc, if_true, ok.injEq, Prod.mk.injEq] at h
        obtain ⟨h1, h2, h3⟩ := h
        exact ⟨[], c, by simp [h1], h2.symm, by simp [h3], by simp, by simpa [isDelim] using hc⟩
      · simp [hc] at h
  | cons d ds ih =>
      intro c buffer buf1 ch rest h
      rw [token_loop] at h
      by_cases hc : (isspace c || c = ')') = true
      · simp only [hc, if_true, ok.injEq, Prod.mk.injEq] at h
        obtain ⟨h1, h2, h3⟩ := h
        exact ⟨[], c, by simp [h1], h2.symm, by simp [h3], by simp, by simpa [isDelim] using hc⟩
      · simp only [hc] at h
        by_cases hl : 128 ≤ buffer.length
        · simp [hl] at h
        · simp only [hl, if_false] at h
          obtain ⟨more, e, h1, h2, h3, h4, h5⟩ := ih d (buffer ++ [c]) buf1 ch rest h
          refine ⟨c :: more, e, by simp [h1], h2, by simp [h3], ?_, h5⟩
          intro x hx
          simp only [List.mem_cons] at hx
          rcases hx with hx | hx
          · subst hx; simpa [isDelim] using hc
          · exact h4 x hx

theorem next_token_nil : next_token [] = exit 0 := rfl

theorem next_token_space (c : Char) (inp : List Char) (h : isspace c = true) :
    next_token (c :: inp) = next_token inp := by
  cases inp with
  | nil => simp [next_token, getc, skip_loop, h]
  | cons d ds => simp [next_token, getc, skip_loop, h]

theorem isspace_newline : isspace '\n' = true := by decide

theorem next_token_char (c : Char) (inp : List Char) (h : isspace c = false) :
    next_token (c :: inp) =
      (if c = ')' then ok (atom ")", inp)
       else if c = '(' then ok (atom "(", inp)
       else token_loop (some c) inp [] >>= fun r =>
        if 128 ≤ r.1.length then undef
        else ok (atom (String.mk (r.1.takeWhile (fun x => x ≠ Char.ofNat 0))),
                 if r.2.1 = some ')' then ')' :: r.2.2 else r.2.2)) := by
  have hn : c ≠ '\n' := by
    intro hc; rw [hc, isspace_newline] at h; cases h
  cases inp with
  | nil => simp [next_token, getc, skip_loop, h, hn]
  | cons d ds => simp [next_token, getc, skip_loop, h, hn]

theorem takeWhile_no_nul (l : List Char) (h : ∀ x ∈ l, x ≠ Char.ofNat 0) :
    l.takeWhile (fun x => x ≠ Char.ofNat 0) = l := by
  induction l with
  | nil => rfl
  | cons a l ih =>
      have ha := h a (by simp)
      simp only [List.takeWhile, ha, ne_eq, not_false_eq_true, decide_True]
      rw [ih (fun x hx => h x (by simp [hx]))]

theorem next_token_ok (inp : List Char) :
    ∀ (tok : Obj) (rest : List Char), (∀ x ∈ inp, x ≠ Char.ofNat 0) →
      next_token inp = ok (tok, rest) →
      (tok = atom ")" ∨ tok = atom "(" ∨ ∃ n, tok = atom n ∧ tokenName n = true)
      ∧ (∀ x ∈ rest, x ≠ Char.ofNat 0) := by
  induction inp with
  | nil => intro tok rest _ h; rw [next_token_nil] at h; cases h
  | cons c cs ih =>
      intro tok rest hnul h
      have hcs : ∀ x ∈ cs, x ≠ Char.ofNat 0 := fun x hx => hnul x (by simp [hx])
      by_cases hsp : isspace c = true
      · rw [next_token_space c cs hsp] at h
        exact ih tok rest hcs h
      · have hsp2 : isspace c = false := by simpa using hsp
        rw [next_token_char c cs hsp2] at h
        by_cases hr : c = ')'
        · simp only [hr, if_true, ok.injEq, Prod.mk.injEq] at h
          exact ⟨Or.inl h.1.symm, fun x hx => hcs x (h.2 ▸ hx)⟩
        · by_cases hl : c = '('
          · simp only [hl, if_true, ok.injEq, Prod.mk.injEq] at h
            have hne : ¬ ('(' = ')') := by decide
            simp only [hne, if_false, ok.injEq, Prod.mk.injEq] at h
            exact ⟨Or.inr (Or.inl h.1.symm), fun x hx => hcs x (h.2 ▸ hx)⟩
          · simp only [hr, hl, if_false] at h
            cases ht : token_loop (some c) cs [] with
            | ok r =>
                obtain ⟨buf, ch, rest1⟩ := r
                rw [ht] at h
                simp only [ok_bind] at h
                by_cases hlen : 128 ≤ buf.length
                · simp [hlen] at h
                · simp only [hlen, if_false, ok.injEq, Prod.mk.injEq] at h
                  obtain ⟨more, d, h1, h2, h3, h4, h5⟩ := token_loop_ok cs c [] buf ch rest1 ht
                  simp only [List.nil_append] at h1
                  subst h1
                  have hcdelim : isDelim c = false := by simp [isDelim, hsp2, hr]
                  cases buf with
                  | nil =>
                      simp only [List.nil_append, List.cons.injEq] at h3
                      rw [h3.1, h5] at hcdelim
                      cases hcdelim
                  | cons m ms =>
                      simp only [List.cons_append, List.cons.injEq] at h3
                      obtain ⟨hcm, hrest⟩ := h3
                      subst hcm
                      have hmem : ∀ x ∈ c :: ms, x ≠ Char.ofNat 0 := by
                        intro x hx
                        simp only [List.mem_cons] at hx
                        rcases hx with hx | hx
                        · exact hx ▸ hnul c (by simp)
                        · exact hcs x (by rw [hrest]; simp [hx])
                      rw [takeWhile_no_nul _ hmem] at h
                      refine ⟨Or.inr (Or.inr ⟨String.mk (c :: ms), h.1.symm, ?_⟩), ?_⟩
                      · simp only [tokenName, hl, ne_eq, not_false_eq_true, decide_True,
                          Bool.true_and, List.all_eq_true]
                        intro x hx
                        simp [h4 x hx]
                      · intro x hx
                        rw [← h.2] at hx
                        have hr1 : ∀ y ∈ rest1, y ≠ Char.ofNat 0 :=
                          fun y hy => hcs y (by rw [hrest]; simp [hy])
                        by_cases hch : ch = some ')'
                        · simp only [hch, if_true, List.mem_cons] at hx
                          rcases hx with hx | hx
                          · rw [hx]; decide
                          · exact hr1 x hx
                        · simp only [hch, if_false] at hx
                          exact hr1 x hx
            | exit e => rw [ht] at h; cases h
            | undef => rw [ht] at h; cases h
            | timeout => rw [ht] at h; cases h

theorem tokenName_ne_parens {n : String} (h : tokenName n = true) : n ≠ ")" ∧ n ≠ "(" := by
  constructor
  · intro hn; rw [hn] at h; exact absurd h (by decide)
  · intro hn; rw [hn] at h; exact absurd h (by decide)

theorem read_tail_atoms (k : Nat) :
    ∀ (inp : List Char) (obj : Obj) (rest : List Char), (∀ x ∈ inp, x ≠ Char.ofNat 0) →
      read_tail k inp = ok (obj, rest) →
      atomsAll tokenName obj = true ∧ (∀ x ∈ rest, x ≠ Char.ofNat 0) := by
  induction k with
  | zero => intro inp obj rest _ h; simp [read_tail] at h
  | succ k ih =>
      intro inp obj rest hnul h
      rw [read_tail] at h
      cases ht : next_token inp with
      | ok r =>
          obtain ⟨tok, in1⟩ := r
          rw [ht] at h
          simp only [ok_bind] at h
          obtain ⟨htok, hin1⟩ := next_token_ok inp tok in1 hnul ht
          rcases htok with htok | htok | ⟨n, htok, hn⟩
          · subst htok
            simp only [name, ok_bind, if_true, ok.injEq, Prod.mk.injEq] at h
            obtain ⟨h1, h2⟩ := h
            subst h1 h2
            exact ⟨rfl, hin1⟩
          · subst htok
            have hne : ¬ ("(" = ")") := by decide
            simp only [name, ok_bind, hne, if_false, if_true] at h
            cases h1 : read_tail k in1 with
            | ok r1 =>
                obtain ⟨fst, in2⟩ := r1
                rw [h1] at h
                simp only [ok_bind] at h
                obtain ⟨hf, hin2⟩ := ih in1 fst in2 hin1 h1
                cases h2 : read_tail k in2 with
                | ok r2 =>
                    obtain ⟨snd, in3⟩ := r2
                    rw [h2] at h
                    simp only [ok_bind, ok.injEq, Prod.mk.injEq] at h
                    obtain ⟨hs, hin3⟩ := ih in2 snd in3 hin2 h2
                    obtain ⟨ho, hr⟩ := h
                    subst ho hr
                    exact ⟨by simp [atomsAll, hf, hs], hin3⟩
                | exit e => rw [h2] at h; cases h
                | undef => rw [h2] at h; cases h
                | timeout => rw [h2] at h; cases h
            | exit e => rw [h1] at h; cases h
            | undef => rw [h1] at h; cases h
            | timeout => rw [h1] at h; cases h
          · subst htok
            obtain ⟨hn1, hn2⟩ := tokenName_ne_parens hn
            simp only [name, ok_bind, hn1, hn2, if_false] at h
            cases h2 : read_tail k in1 with
            | ok r2 =>
                obtain ⟨snd, in2⟩ := r2
                rw [h2] at h
                simp only [ok_bind, ok.injEq, Prod.mk.injEq] at h
                obtain ⟨hs, hin2⟩ := ih in1 snd in2 hin1 h2
                obtain ⟨ho, hr⟩ := h
                subst ho hr
                exact ⟨by simp [atomsAll, hn, hs], hin2⟩
            | exit e => rw [h2] at h; cases h
            | undef => rw [h2] at h; cases h
            | timeout => rw [h2] at h; cases h
      | exit e => rw [ht] at h; cases h
      | undef => rw [ht] at h; cases h
      | timeout => rw [ht] at h; cases h

theorem token_loop_eof (cs : List Char) :
    ∀ (c : Char) (buffer : List Char), (∀ x ∈ c :: cs, isDelim x = false) →
      token_loop (some c) cs buffer = undef := by
  induction cs with
  | nil =>
      intro c buffer h
      have hc := h c (by simp)
      simp only [isDelim] at hc
      rw [token_loop, if_neg (by simp [hc])]
  | cons d ds ih =>
      intro c buffer h
      have hc := h c (by simp)
      simp only [isDelim] at hc
      rw [token_loop, if_neg (by simp [hc])]
      by_cases hl : 128 ≤ buffer.length
      · rw [if_pos hl]
      · rw [if_neg hl]
        exact ih d _ (fun x hx => h x (by simp at hx ⊢; right; exact hx))

theorem print_cons_data (t : Bool) (a d : Obj) :
    (print (cons t a d)).data = '(' :: ((print a).data ++ ((print_loop d).data ++ [')'])) := by
  simp [print, String.data_append]

theorem print_loop_cons_data (t : Bool) (a d : Obj) :
    (print_loop (cons t a d)).data = ' ' :: ((print a).data ++ (print_loop d).data) := by
  simp [print_loop, String.data_append]

theorem next_token_name (n : String) (dl : Char) (rest : List Char)
    (hn : goodName n = true) (hd : isDelim dl = true) :
    next_token (n.data ++ dl :: rest)
      = ok (atom n, if dl = ')' then ')' :: rest else rest) := by
  simp only [goodName, Bool.and_eq_true, List.all_eq_true, decide_eq_true_eq,
    Bool.not_eq_true', Bool.not_eq_true] at hn
  obtain ⟨⟨hne, hlen⟩, hall⟩ := hn
  cases hdata : n.data with
  | nil => rw [hdata] at hne; simp at hne
  | cons c cs =>
      rw [hdata] at hall hlen
      have hc := hall c (by simp)
      have hcd : isDelim c = false := hc.1.1
      have hcd2 := hcd
      simp only [isDelim, Bool.or_eq_false_iff, decide_eq_false_iff_not] at hcd2
      have hrun := token_loop_run (c :: cs) c (cs ++ dl :: rest) [] dl rest
        (fun x hx => (hall x hx).1.1) hd (by simp at hlen ⊢; omega) (by simp)
      rw [List.cons_append, next_token_char c _ hcd2.1, if_neg hcd2.2, if_neg hc.1.2, hrun]
      simp only [ok_bind, List.nil_append]
      have hl : ¬ 128 ≤ (c :: cs).length := by simp at hlen ⊢; omega
      rw [if_neg hl, takeWhile_no_nul _ (fun x hx => (hall x hx).2)]
      have hs : String.mk (c :: cs) = n := by rw [← hdata]
      rw [hs]
      by_cases hp : dl = ')'
      · simp [hp]
      · simp [hp]

theorem read_tail_space (k : Nat) (c : Char) (inp : List Char) (h : isspace c = true) :
    read_tail k (c :: inp) = read_tail k inp := by
  cases k with
  | zero => rfl
  | succ k => rw [read_tail, read_tail, next_token_space c inp h]

theorem next_token_rparen (inp : List Char) : next_token (')' :: inp) = ok (atom ")", inp) := by
  rw [next_token_char _ _ (by decide), if_pos rfl]

theorem next_token_lparen (inp : List Char) : next_token ('(' :: inp) = ok (atom "(", inp) := by
  rw [next_token_char _ _ (by decide), if_neg (by decide), if_pos rfl]

theorem goodName_ne_parens {n : String} (h : goodName n = true) : n ≠ ")" ∧ n ≠ "(" := by
  constructor
  · intro hn; rw [hn] at h; exact absurd h (by decide)
  · intro hn; rw [hn] at h; exact absurd h (by decide)

theorem printable_cons {t : Bool} {a d : Obj} (h : printable (cons t a d) = true) :
    printable a = true ∧ (d = null ∨ ((∃ t2 b d2, d = cons t2 b d2) ∧ printable d = true)) := by
  cases d with
  | null => exact ⟨by simpa [printable] using h, Or.inl rfl⟩
  | cons t2 b d2 =>
      simp only [printable, Bool.and_eq_true] at h
      exact ⟨h.1, Or.inr ⟨⟨t2, b, d2, rfl⟩, h.2⟩⟩
  | atom n => simp [printable] at h
  | func f => simp [printable] at h
  | lambda p b => simp [printable] at h

/-- What follows an element in the text of a list, `print_loop d` and the closing
`)`, begins with a character that ends a token, and `read_tail` reads the same from
it whether or not `next_token` has taken that character. -/
theorem tail_text_delim (d : Obj) (rest : List Char)
    (hd : d = null ∨ ((∃ t2 b d2, d = cons t2 b d2) ∧ printable d = true)) :
    ∃ dl X, (print_loop d).data ++ ')' :: rest = dl :: X ∧ isDelim dl = true
      ∧ ∀ k, read_tail k (if dl = ')' then ')' :: X else X)
          = read_tail k ((print_loop d).data ++ ')' :: rest) := by
  rcases hd with hd | ⟨⟨t2, b, d2, hd⟩, _⟩
  · subst hd
    exact ⟨')', rest, by simp [print_loop], by decide, fun k => by simp [print_loop]⟩
  · subst hd
    refine ⟨' ', (print b).data ++ (print_loop d2).data ++ ')' :: rest, ?_, by decide, ?_⟩
    · rw [print_loop_cons_data]; simp
    · intro k
      rw [print_loop_cons_data, if_neg (by decide)]
      simp only [List.cons_append, List.append_assoc]
      rw [read_tail_space k ' ' _ (by decide)]

theorem read_tail_print_loop (d : Obj) :
    (d = null ∨ ((∃ t a d1, d = cons t a d1) ∧ printable d = true)) →
    ∀ rest, ∃ k, ∀ j,
      read_tail (k + j) ((print_loop d).data ++ ')' :: rest) = ok (untag d, rest) := by
  induction d with
  | null =>
      intro _ rest
      refine ⟨1, fun j => ?_⟩
      rw [Nat.add_comm, read_tail]
      simp [print_loop, next_token_rparen, name, untag]
  | atom n => intro h; rcases h with h | ⟨⟨_, _, _, h⟩, _⟩ <;> cases h
  | func f => intro h; rcases h with h | ⟨⟨_, _, _, h⟩, _⟩ <;> cases h
  | lambda p b _ _ => intro h; rcases h with h | ⟨⟨_, _, _, h⟩, _⟩ <;> cases h
  | cons t a d1 iha ihd =>
      intro h rest
      have hp : printable (cons t a d1) = true := by
        rcases h with h | ⟨_, h⟩
        · cases h
        · exact h
      obtain ⟨hpa, htail⟩ := printable_cons hp
      obtain ⟨kd, hkd⟩ := ihd htail rest
      obtain ⟨dl, X, hX, hdl, hskip⟩ := tail_text_delim d1 rest htail
      cases a with
      | null => simp [printable] at hpa
      | func f => simp [printable] at hpa
      | lambda p b => simp [printable] at hpa
      | atom n =>
          simp only [printable] at hpa
          obtain ⟨hn1, hn2⟩ := goodName_ne_parens hpa
          refine ⟨kd + 1, fun j => ?_⟩
          have hfuel : kd + 1 + j = (kd + j) + 1 := by omega
          rw [hfuel, print_loop_cons_data]
          simp only [List.cons_append, List.append_assoc]
          rw [read_tail_space _ ' ' _ (by decide), read_tail]
          have htext : (print (atom n)).data = n.data := rfl
          rw [htext, hX, next_token_name n dl X hpa hdl]
          simp only [ok_bind, name, hn1, hn2, if_false]
          rw [hskip (kd + j), hkd j]
          simp [untag]
      | cons ta a1 da =>
          obtain ⟨ka, hka⟩ := iha (Or.inr ⟨⟨ta, a1, da, rfl⟩, hpa⟩)
            ((print_loop d1).data ++ ')' :: rest)
          refine ⟨ka + kd + 1, fun j => ?_⟩
          have hfuel : ka + kd + 1 + j = (ka + kd + j) + 1 := by omega
          have h1 := hka (kd + j)
          have h2 := hkd (ka + j)
          have hf1 : ka + (kd + j) = ka + kd + j := by omega
          have hf2 : kd + (ka + j) = ka + kd + j := by omega
          rw [hf1] at h1
          rw [hf2] at h2
          rw [print_loop_cons_data] at h1
          simp only [List.cons_append, List.append_assoc] at h1
          rw [read_tail_space _ ' ' _ (by decide)] at h1
          rw [hfuel, print_loop_cons_data, print_cons_data]
          simp only [List.cons_append, List.append_assoc, List.nil_append]
          rw [read_tail_space _ ' ' _ (by decide), read_tail, next_token_lparen]
          have hne : ¬ ("(" = ")") := by decide
          simp only [ok_bind, name, hne, if_false, if_true]
          rw [h1]
          simp only [ok_bind]
          rw [h2]
          simp [untag]

theorem mem_of_mem_takeWhile (p : Char → Bool) (l : List Char) :
    ∀ x ∈ l.takeWhile p, x ∈ l := by
  induction l with
  | nil => intro x hx; simp at hx
  | cons a l ih =>
      intro x hx
      by_cases ha : p a = true
      · simp only [List.takeWhile, ha, List.mem_cons] at hx
        rcases hx with hx | hx
        · simp [hx]
        · simp [ih x hx]
      · simp [List.takeWhile, ha] at hx

theorem tokenChars_takeWhile (p : Char → Bool) (c : Char) (ms : List Char) (hl : c ≠ '(')
    (h : ∀ x ∈ c :: ms, isDelim x = false) :
    tokenChars (String.mk ((c :: ms).takeWhile p)) = true := by
  by_cases hc : p c = true
  · simp only [tokenChars, List.takeWhile, hc, hl, ne_eq, not_false_eq_true, decide_True,
      Bool.true_and, List.all_eq_true]
    intro x hx
    simp only [List.mem_cons] at hx
    rcases hx with hx | hx
    · simp [hx, h c (by simp)]
    · simp [h x (by simp [mem_of_mem_takeWhile p ms x hx])]
  · simp [tokenChars, List.takeWhile, hc]

theorem tokenChars_ne_parens {n : String} (h : tokenChars n = true) : n ≠ ")" ∧ n ≠ "(" := by
  constructor
  · intro hn; rw [hn] at h; exact absurd h (by decide)
  · intro hn; rw [hn] at h; exact absurd h (by decide)

theorem next_token_chars (inp : List Char) :
    ∀ (tok : Obj) (rest : List Char), next_token inp = ok (tok, rest) →
      (tok = atom ")" ∨ tok = atom "(" ∨ ∃ n, tok = atom n ∧ tokenChars n = true) := by
  induction inp with
  | nil => intro tok rest h; rw [next_token_nil] at h; cases h
  | cons c cs ih =>
      intro tok rest h
      by_cases hsp : isspace c = true
      · rw [next_token_space c cs hsp] at h
        exact ih tok rest h
      · have hsp2 : isspace c = false := by simpa using hsp
        rw [next_token_char c cs hsp2] at h
        by_cases hr : c = ')'
        · simp only [hr, if_true, ok.injEq, Prod.mk.injEq] at h
          exact Or.inl h.1.symm
        · by_cases hl : c = '('
          · simp only [hl, if_true, ok.injEq, Prod.mk.injEq] at h
            have hne : ¬ ('(' = ')') := by decide
            simp only [hne, if_false, ok.injEq, Prod.mk.injEq] at h
            exact Or.inr (Or.inl h.1.symm)
          · simp only [hr, hl, if_false] at h
            cases ht : token_loop (some c) cs [] with
            | ok r =>
                obtain ⟨buf, ch, rest1⟩ := r
                rw [ht] at h
                simp only [ok_bind] at h
                by_cases hlen : 128 ≤ buf.length
                · simp [hlen] at h
                · simp only [hlen, if_false, ok.injEq, Prod.mk.injEq] at h
                  obtain ⟨more, d, h1, h2, h3, h4, h5⟩ := token_loop_ok cs c [] buf ch rest1 ht
                  simp only [List.nil_append] at h1
                  subst h1
                  have hcdelim : isDelim c = false := by simp [isDelim, hsp2, hr]
                  cases buf with
                  | nil =>
                      simp only [List.nil_append, List.cons.injEq] at h3
                      rw [h3.1, h5] at hcdelim
                      cases hcdelim
                  | cons m ms =>
                      simp only [List.cons_append, List.cons.injEq] at h3
                      obtain ⟨hcm, _⟩ := h3
                      subst hcm
                      exact Or.inr (Or.inr ⟨_, h.1.symm, tokenChars_takeWhile _ c ms hl h4⟩)
            | exit e => rw [ht] at h; cases h
            | undef => rw [ht] at h; cases h
            | timeout => rw [ht] at h; cases h

theorem read_tail_chars (k : Nat) :
    ∀ (inp : List Char) (obj : Obj) (rest : List Char),
      read_tail k inp = ok (obj, rest) → atomsAll tokenChars obj = true := by
  induction k with
  | zero => intro inp obj rest h; simp [read_tail] at h
  | succ k ih =>
      intro inp obj rest h
      rw [read_tail] at h
      cases ht : next_token inp with
      | ok r =>
          obtain ⟨tok, in1⟩ := r
          rw [ht] at h
          simp only [ok_bind] at h
          rcases next_token_chars inp tok in1 ht with htok | htok | ⟨n, htok, hn⟩
          · subst htok
            simp only [name, ok_bind, if_true, ok.injEq, Prod.mk.injEq] at h
            rw [← h.1]
            rfl
          · subst htok
            have hne : ¬ ("(" = ")") := by decide
            simp only [name, ok_bind, hne, if_false, if_true] at h
            cases h1 : read_tail k in1 with
            | ok r1 =>
                obtain ⟨fst, in2⟩ := r1
                rw [h1] at h
                simp only [ok_bind] at h
                cases h2 : read_tail k in2 with
                | ok r2 =>
                    obtain ⟨snd, in3⟩ := r2
                    rw [h2] at h
                    simp only [ok_bind, ok.injEq, Prod.mk.injEq] at h
                    rw [← h.1]
                    simp [atomsAll, ih in1 fst in2 h1, ih in2 snd in3 h2]
                | exit e => rw [h2] at h; cases h
                | undef => rw [h2] at h; cases h
                | timeout => rw [h2] at h; cases h
            | exit e => rw [h1] at h; cases h
            | undef => rw [h1] at h; cases h
            | timeout => rw [h1] at h; cases h
          · subst htok
            obtain ⟨hn1, hn2⟩ := tokenChars_ne_parens hn
            simp only [name, ok_bind, hn1, hn2, if_false] at h
            cases h2 : read_tail k in1 with
            | ok r2 =>
                obtain ⟨snd, in2⟩ := r2
                rw [h2] at h
                simp only [ok_bind, ok.injEq, Prod.mk.injEq] at h
                rw [← h.1]
                simp [atomsAll, hn, ih in1 snd in2 h2]
            | exit e => rw [h2] at h; cases h
            | undef => rw [h2] at h; cases h
            | timeout => rw [h2] at h; cases h
      | exit e => rw [ht] at h; cases h
      | undef => rw [ht] at h; cases h
      | timeout => rw [ht] at h; cases h

theorem read_chars (k : Nat) (inp : List Char) (obj : Obj) (rest : List Char)
    (h : read k inp = ok (obj, rest)) : obj = atom ")" ∨ atomsAll tokenChars obj = true := by
  rw [read] at h
  cases ht : next_token inp with
  | ok r =>
      obtain ⟨tok, in1⟩ := r
      rw [ht] at h
      simp only [ok_bind] at h
      rcases next_token_chars inp tok in1 ht with htok | htok | ⟨n, htok, hn⟩
      · subst htok
        have hne : ¬ (")" = "(") := by decide
        simp only [name, ok_bind, hne, if_false, ok.injEq, Prod.mk.injEq] at h
        exact Or.inl h.1.symm
      · subst htok
        simp only [name, ok_bind, if_true] at h
        exact Or.inr (read_tail_chars k in1 obj rest h)
      · subst htok
        obtain ⟨_, hn2⟩ := tokenChars_ne_parens hn
        simp only [name, ok_bind, hn2, if_false, ok.injEq, Prod.mk.injEq] at h
        rw [← h.1]
        exact Or.inr hn
  | exit e => rw [ht] at h; cases h
  | undef => rw [ht] at h; cases h
  | timeout => rw [ht] at h; cases h

/-! ## The claims -/

/-- C1: in the environment of `init_env`, `((LAMBDA (X) (CONS X (B))) A)` evaluates,
within every recursion bound of at least 4, to the two-element list of the atoms
`A` and `B`; the environment is left as it was and the result prints as `(A B)`. -/
theorem C1_lambda_application (j : Nat) :
    eval (4 + j)
        (list [list [atom "LAMBDA", list [atom "X"],
                 list [atom "CONS", atom "X", list [atom "B"]]],
               atom "A"]) init_env
      = ok (list [atom "A", atom "B"], init_env)
    ∧ print (list [atom "A", atom "B"]) = "(A B)" := by
  refine ⟨?_, by decide⟩
  rw [eval_add_stable 4 j _ _ (by decide)]
  decide

/-- C2 fails for a list that `eval` can reduce: in the environment of `init_env`,
`(QUOTE (CAR (A B)))` evaluates to the atom `A`, which prints as `A`, whereas the
list `(CAR (A B))` prints as `(CAR (A B))`. -/
theorem C2_quote_evaluates_its_argument :
    eval 4 (list [atom "QUOTE", list [atom "CAR", list [atom "A", atom "B"]]]) init_env
      = ok (atom "A", init_env)
    ∧ print (atom "A") = "A"
    ∧ print (list [atom "CAR", list [atom "A", atom "B"]]) = "(CAR (A B))" := by
  decide

/-- C2, amended: for every list `L` as `read` builds it whose atoms are all names
that `init_env` does not bind and none of whose lists is empty, `(QUOTE L)` evaluates
in the environment of `init_env`, within some recursion bound and every larger one,
to an object that prints exactly as `L` does; the environment is left as it was. -/
theorem C2_quote_of_inert_list (L : Obj) (h : inert L = true) :
    ∃ k, ∀ j, ∃ v, eval (k + j) (list [atom "QUOTE", L]) init_env = ok (v, init_env)
      ∧ print v = print L := by
  obtain ⟨k, hk⟩ := (eval_inert L h).1
  refine ⟨k + 1, fun j => ⟨L, ?_, rfl⟩⟩
  have hfuel : k + 1 + j = (k + j) + 1 := by omega
  have hq : eval (k + j) (atom "QUOTE") init_env = ok (func .quote, init_env) := by
    cases hkj : k + j with
    | zero =>
        have h0 := hk j
        rw [hkj, eval_zero] at h0
        cases h0
    | succ m => rfl
  have hnull : atom "QUOTE" ≠ null := by decide
  have hlam : atom "QUOTE" ≠ atom "LAMBDA" := by decide
  rw [hfuel]
  simp only [list]
  rw [eval_cons, if_neg hnull, if_neg hlam, hq]
  simp [eval_loop, hk j, append, eval_fn, first, second, callFn, fn_quote]

/-- C2, amended, at `L = (A B)`. -/
theorem C2_quote_of_inert_list_witness :
    inert (list [atom "A", atom "B"]) = true
    ∧ ∃ k, ∀ j, ∃ v, eval (k + j) (list [atom "QUOTE", list [atom "A", atom "B"]]) init_env
        = ok (v, init_env) ∧ print v = print (list [atom "A", atom "B"]) :=
  ⟨by decide, C2_quote_of_inert_list (list [atom "A", atom "B"]) (by decide)⟩

/-- C3, as the code behaves: `eval` evaluates every clause of a `COND` form before
`fn_cond` runs.  `(COND ((EQUAL A A) B) ((LABEL X Y) C))` returns `B` but leaves `X`
bound to `Y`, whereas without the second clause the environment is unchanged; and
with the later clause `((EQUAL (A) A) C)` the whole form ends in `exit(1)`. -/
theorem C3_cond_evaluates_later_clauses (j : Nat) :
    eval (4 + j)
        (list [atom "COND", list [list [atom "EQUAL", atom "A", atom "A"], atom "B"],
               list [list [atom "LABEL", atom "X", atom "Y"], atom "C"]]) init_env
      = ok (atom "B", envOf (initBindings ++ [("X", atom "Y")]))
    ∧ eval (4 + j)
        (list [atom "COND", list [list [atom "EQUAL", atom "A", atom "A"], atom "B"]]) init_env
      = ok (atom "B", init_env)
    ∧ eval (5 + j)
        (list [atom "COND", list [list [atom "EQUAL", atom "A", atom "A"], atom "B"],
               list [list [atom "EQUAL", list [atom "A"], atom "A"], atom "C"]]) init_env
      = exit 1 := by
  refine ⟨?_, ?_, ?_⟩
  · rw [eval_add_stable 4 j _ _ (by decide)]; decide
  · rw [eval_add_stable 4 j _ _ (by decide)]; decide
  · rw [eval_add_stable 5 j _ _ (by decide)]; decide

/-- C4, as the code behaves: in the environment of `init_env` a `COND` without
clauses returns the empty-list value and the test `(EQUAL A B)` evaluates to the
empty-list value, yet `(COND ((EQUAL A B) C))` does not return: the clause arrives at
`fn_cond` already evaluated, `fn_cond` evaluates the empty-list value once more, and
`eval` reads the type of its `NULL` first element. -/
theorem C4_cond_without_match_faults (j : Nat) :
    eval (2 + j) (list [atom "COND"]) init_env = ok (nil, init_env)
    ∧ eval (2 + j) (list [atom "EQUAL", atom "A", atom "B"]) init_env = ok (nil, init_env)
    ∧ eval (4 + j) (list [atom "COND", list [list [atom "EQUAL", atom "A", atom "B"], atom "C"]])
        init_env = undef := by
  refine ⟨?_, ?_, ?_⟩
  · rw [eval_add_stable 2 j _ _ (by decide)]; decide
  · rw [eval_add_stable 2 j _ _ (by decide)]; decide
  · rw [eval_add_stable 4 j _ _ (by decide)]; decide

/-- C5 fails for a second argument that is no list: `fn_cons` applied to the atoms
`A` and `B` returns the one-element list `(A)`, whose `CDR` is `NULL`, not `B`. -/
theorem C5_cdr_of_cons_atom :
    fn_cons (list [atom "A", atom "B"]) init_env = ok (list [atom "A"], init_env)
    ∧ fn_second (list [list [atom "A"]]) init_env = ok (null, init_env)
    ∧ untag null ≠ untag (atom "B") := by
  decide

/-- C5, amended: for every value `x` and every list `rest` (a chain of cells ending
in `NULL`, the empty-list value included), `fn_cons` applied to `x` and `rest`
returns a list `r` such that `fn_first` applied to `r` returns `x` and `fn_second`
applied to `r` returns an object structurally equal to `rest`. -/
theorem C5_car_cdr_of_cons (x rest env : Obj) (h : isList rest = true) :
    ∃ r r2, fn_cons (list [x, rest]) env = ok (r, env)
      ∧ fn_first (list [r]) env = ok (x, env)
      ∧ fn_second (list [r]) env = ok (r2, env)
      ∧ untag r2 = untag rest := by
  refine ⟨list (x :: elems rest), list (elems rest), ?_, rfl, rfl, untag_list_elems rest h⟩
  have hl := fn_cons_loop_list rest x []
  simp only [list, List.nil_append] at hl
  simp [fn_cons, list, first, second, hl]

/-- C5, amended, at `x = A` and `rest = (B C)`. -/
theorem C5_car_cdr_of_cons_witness :
    isList (list [atom "B", atom "C"]) = true
    ∧ ∃ r r2, fn_cons (list [atom "A", list [atom "B", atom "C"]]) init_env = ok (r, init_env)
      ∧ fn_first (list [r]) init_env = ok (atom "A", init_env)
      ∧ fn_second (list [r]) init_env = ok (r2, init_env)
      ∧ untag r2 = untag (list [atom "B", atom "C"]) :=
  ⟨by decide, C5_car_cdr_of_cons (atom "A") (list [atom "B", atom "C"]) init_env (by decide)⟩

/-- C6: in every environment (a list of associations `bs` in which `LABEL` resolves
to the built-in `fn_label`) and for all names `n` and `a` that no association of it
carries, `(LABEL n a)` returns the truth atom and appends the association of `n`
with the atom `a`; evaluating the atom `n` in the environment so extended returns
the atom `a`.  Both hold within every recursion bound of at least 2 and 1. -/
theorem C6_label_then_reference (bs : List (String × Obj)) (n a : String) (j : Nat)
    (hlabel : firstValue "LABEL" bs = some (func .label))
    (hn : firstValue n bs = none) (ha : firstValue a bs = none) :
    eval (2 + j) (list [atom "LABEL", atom n, atom a]) (envOf bs)
        = ok (tee, envOf (bs ++ [(n, atom a)]))
    ∧ eval (1 + j) (atom n) (envOf (bs ++ [(n, atom a)]))
        = ok (atom a, envOf (bs ++ [(n, atom a)])) := by
  have hbs : bs ≠ [] := firstValue_ne_nil hlabel
  have h1 : eval 2 (list [atom "LABEL", atom n, atom a]) (envOf bs)
      = ok (tee, envOf (bs ++ [(n, atom a)])) := by
    have hne : ¬ (atom "LABEL" = atom "LAMBDA") := by decide
    have happ := append_envOf bs hbs n (atom a)
    simp only [assoc] at happ
    simp [list, eval_cons, eval_atom, lookup_envOf, hlabel, hn, ha, eval_loop, append, eval_fn,
      first, second, callFn, fn_label, name, happ, hne]
  have h2 : eval 1 (atom n) (envOf (bs ++ [(n, atom a)]))
      = ok (atom a, envOf (bs ++ [(n, atom a)])) := by
    simp [eval_atom, lookup_envOf, firstValue_append, hn, firstValue]
  constructor
  · rw [eval_add_stable 2 j _ _ (by rw [h1]; simp), h1]
  · rw [eval_add_stable 1 j _ _ (by rw [h2]; simp), h2]

/-- C6 at the environment of `init_env`: `(LABEL X A)`, then `X`. -/
theorem C6_label_then_reference_witness :
    eval 2 (list [atom "LABEL", atom "X", atom "A"]) (envOf initBindings)
        = ok (tee, envOf (initBindings ++ [("X", atom "A")]))
    ∧ eval 1 (atom "X") (envOf (initBindings ++ [("X", atom "A")]))
        = ok (atom "A", envOf (initBindings ++ [("X", atom "A")])) :=
  C6_label_then_reference initBindings "X" "A" 0 (by decide) (by decide) (by decide)

/-- C7: for every environment with at least one association, every name `n` and
every value `v`, `fn_label` applied to the atom `n` and `v` returns the truth atom
and appends the association of `n` with `v`; afterwards `lookup` of `n` returns what
it returned before when an association named `n` was already there, and `v` when
there was none. -/
theorem C7_label_keeps_earlier_binding (bs : List (String × Obj)) (n : String) (v : Obj)
    (hbs : bs ≠ []) :
    fn_label (list [atom n, v]) (envOf bs) = ok (tee, envOf (bs ++ [(n, v)]))
    ∧ (∀ w, firstValue n bs = some w →
        lookup n (envOf bs) = ok w ∧ lookup n (envOf (bs ++ [(n, v)])) = ok w)
    ∧ (firstValue n bs = none → lookup n (envOf (bs ++ [(n, v)])) = ok v) := by
  refine ⟨?_, ?_, ?_⟩
  · have happ := append_envOf bs hbs n v
    simp only [assoc] at happ
    simp [fn_label, list, first, second, name, happ]
  · intro w hw
    simp [lookup_envOf, firstValue_append, hw]
  · intro hnone
    simp [lookup_envOf, firstValue_append, hnone, firstValue]

/-- C7 at the environment of `init_env` followed by `X = A`: labelling `X` with `B`
leaves `lookup` of `X` at `A`. -/
theorem C7_label_keeps_earlier_binding_witness :
    fn_label (list [atom "X", atom "B"]) (envOf (initBindings ++ [("X", atom "A")]))
      = ok (tee, envOf ((initBindings ++ [("X", atom "A")]) ++ [("X", atom "B")]))
    ∧ lookup "X" (envOf ((initBindings ++ [("X", atom "A")]) ++ [("X", atom "B")]))
      = ok (atom "A") :=
  have h := C7_label_keeps_earlier_binding (initBindings ++ [("X", atom "A")]) "X" (atom "B")
    (by decide)
  ⟨h.1, (h.2.1 (atom "A") (by decide)).2⟩

/-- C8 fails: `(LABEL F (LAMBDA (X) (F X)))` returns the truth atom and binds `F`, and
in the environment it leaves no recursion bound lets `(F A)` end: the closure's body
instantiates to `(F A)` again. -/
theorem C8_recursive_label_never_returns :
    eval 3 (list [atom "LABEL", atom "F",
        list [atom "LAMBDA", list [atom "X"], list [atom "F", atom "X"]]]) init_env
      = ok (tee, envOf (initBindings ++ [("F", closureLoop)]))
    ∧ ¬ ∃ k, eval k (list [atom "F", atom "A"]) (envOf (initBindings ++ [("F", closureLoop)]))
        ≠ timeout := by
  refine ⟨by decide, ?_⟩
  rintro ⟨k, hk⟩
  exact hk (loop_never_returns k)

/-- C8, amended: `eval` ends (it returns an object, exits, or faults on a `NULL` or
wrongly typed pointer) on every expression built from `NULL`, cells and atoms other
than `LAMBDA` and `COND`, in every environment in which the names other than
`LAMBDA` and `COND` are bound to values holding no closure, `fn_cond` or
`fn_lambda`: some recursion bound and every larger one gives an outcome other than
`timeout`.  What it returns, and the environment it leaves, hold no such value
either, so the next such expression ends as well. -/
theorem C8_eval_ends_without_closure_and_cond (e env : Obj) (he : plain e = true)
    (henv : TameEnv env) :
    ∃ k, ∀ j, eval (k + j) e env ≠ timeout
      ∧ ∀ v env1, eval (k + j) e env = ok (v, env1) → tame v = true ∧ TameEnv env1 := by
  obtain ⟨k, hk⟩ := (eval_plain_ends e he).1 env henv
  refine ⟨k, fun j => ?_⟩
  rw [eval_add_stable k j e env hk.1]
  exact ⟨hk.1, fun v env1 h => hk.2 (v, env1) h⟩

/-- C8, amended, at `(LABEL X (CONS A (B)))` in the environment of `init_env`. -/
theorem C8_eval_ends_without_closure_and_cond_witness :
    plain (list [atom "LABEL", atom "X", list [atom "CONS", atom "A", list [atom "B"]]]) = true
    ∧ ∃ k, ∀ j,
      eval (k + j) (list [atom "LABEL", atom "X", list [atom "CONS", atom "A", list [atom "B"]]])
        init_env ≠ timeout
      ∧ ∀ v env1,
        eval (k + j) (list [atom "LABEL", atom "X", list [atom "CONS", atom "A", list [atom "B"]]])
          init_env = ok (v, env1) → tame v = true ∧ TameEnv env1 :=
  ⟨by decide, C8_eval_ends_without_closure_and_cond _ init_env (by decide) tameEnv_init_env⟩

/-- C9: a closure holds a parameter list and a body and nothing else, and applying
it is `interleave`, `replace_atom` and an evaluation of the substituted body in the
environment of the call.  So after `(LABEL F (LAMBDA (X) (CONS X (Y))))`, evaluated in
the environment of `init_env` where `Y` is unbound, `(F A)` returns `(A Y)`, and once
`(LABEL Y B)` has been evaluated the same `(F A)` returns the list `(A B)`. -/
theorem C9_closure_resolves_at_call_site (j : Nat) :
    (∀ (ev : Obj → Obj → Res (Obj × Obj)) (p b args env : Obj),
      eval_fn ev (cons false (lambda p b) args) env
        = (interleave p args >>= fun w => replace_atom b w >>= fun s => ev s env))
    ∧ eval (3 + j)
        (list [atom "LABEL", atom "F",
          list [atom "LAMBDA", list [atom "X"], list [atom "CONS", atom "X", list [atom "Y"]]]])
        init_env
      = ok (tee, envOf (initBindings ++ [("F", closureConsY)]))
    ∧ eval (4 + j) (list [atom "F", atom "A"]) (envOf (initBindings ++ [("F", closureConsY)]))
      = ok (list [atom "A", atom "Y"], envOf (initBindings ++ [("F", closureConsY)]))
    ∧ eval (3 + j) (list [atom "LABEL", atom "Y", atom "B"])
        (envOf (initBindings ++ [("F", closureConsY)]))
      = ok (tee, envOf (initBindings ++ [("F", closureConsY), ("Y", atom "B")]))
    ∧ eval (4 + j) (list [atom "F", atom "A"])
        (envOf (initBindings ++ [("F", closureConsY), ("Y", atom "B")]))
      = ok (list [atom "A", atom "B"],
            envOf (initBindings ++ [("F", closureConsY), ("Y", atom "B")])) := by
  refine ⟨?_, ?_, ?_, ?_, ?_⟩
  · intro ev p b args env
    simp [eval_fn, fn_lambda, first, second]
  · rw [eval_add_stable 3 j _ _ (by decide)]; decide
  · rw [eval_add_stable 4 j _ _ (by decide)]; decide
  · rw [eval_add_stable 3 j _ _ (by decide)]; decide
  · rw [eval_add_stable 4 j _ _ (by decide)]; decide

/-- C10: for all names `a` and `b`, `fn_equal` applied to an atom named `a` and an
atom named `b` returns the truth atom when the names are equal and the empty-list
value when they differ.  Atoms carry a name and no identity, so nothing but the
names can enter the comparison. -/
theorem C10_equal_compares_names (a b : String) (env : Obj) :
    fn_equal (list [atom a, atom b]) env = ok (if a = b then tee else nil, env) := by
  by_cases h : a = b <;> simp [fn_equal, list, first, second, name, h]

/-- C11 fails for an argument that is the empty reference: `(CDR (A))` evaluates to
`NULL`, and `fn_equal` applied to `NULL` and the atom `A` neither exits nor returns:
`name` reads the type of `NULL`.  So does `(EQUAL (CDR (A)) A)`. -/
theorem C11_equal_on_null :
    eval 3 (list [atom "CDR", list [atom "A"]]) init_env = ok (null, init_env)
    ∧ fn_equal (list [null, atom "A"]) init_env = undef
    ∧ eval 4 (list [atom "EQUAL", list [atom "CDR", list [atom "A"]], atom "A"]) init_env
        = undef := by
  decide

/-- C11, amended: for every pair of arguments neither of which is the empty
reference, `fn_equal` ends in `exit(1)` if and only if at least one of the two is
not an atom (it is a pair, a native function or a closure), and when both are atoms
it returns the truth atom or the empty-list value. -/
theorem C11_equal_fatal_iff_not_atoms (a b env : Obj) (ha : a ≠ null) (hb : b ≠ null) :
    (fn_equal (list [a, b]) env = exit 1 ↔ (isAtom a = false ∨ isAtom b = false))
    ∧ (isAtom a = true → isAtom b = true →
        fn_equal (list [a, b]) env = ok (tee, env) ∨ fn_equal (list [a, b]) env = ok (nil, env)) := by
  cases a <;> cases b <;>
    simp [fn_equal, list, first, second, name, isAtom] at ha hb ⊢
  rename_i n m
  by_cases h : n = m <;> simp [h]

/-- C11, amended, at the atom `A` and the list `(B)`. -/
theorem C11_equal_fatal_iff_not_atoms_witness :
    (fn_equal (list [atom "A", list [atom "B"]]) init_env = exit 1
        ↔ (isAtom (atom "A") = false ∨ isAtom (list [atom "B"]) = false))
    ∧ (isAtom (atom "A") = true → isAtom (list [atom "B"]) = true →
        fn_equal (list [atom "A", list [atom "B"]]) init_env = ok (tee, init_env)
        ∨ fn_equal (list [atom "A", list [atom "B"]]) init_env = ok (nil, init_env)) :=
  C11_equal_fatal_iff_not_atoms (atom "A") (list [atom "B"]) init_env (by decide) (by decide)

/-- C12 fails for a name whose first association holds the empty reference: after
`(LABEL X (CDR (A)))` the first association of `X` holds `NULL`, and `eval` of the
atom `X` returns the atom `X`, not that value. -/
theorem C12_atom_bound_to_null :
    eval 4 (list [atom "LABEL", atom "X", list [atom "CDR", list [atom "A"]]]) init_env
      = ok (tee, envOf (initBindings ++ [("X", null)]))
    ∧ firstValue "X" (initBindings ++ [("X", null)]) = some null
    ∧ eval 1 (atom "X") (envOf (initBindings ++ [("X", null)]))
      = ok (atom "X", envOf (initBindings ++ [("X", null)])) := by
  decide

/-- C12, amended: in every environment, within every recursion bound of at least 1,
`eval` of an atom returns the value of the first association carrying the atom's
name when there is one and that value is not the empty reference, and the atom
itself otherwise; the environment is left as it was. -/
theorem C12_eval_atom (bs : List (String × Obj)) (n : String) (j : Nat) :
    eval (1 + j) (atom n) (envOf bs)
      = ok (match firstValue n bs with
            | some v => if v = null then atom n else v
            | none => atom n, envOf bs) := by
  rw [Nat.add_comm, eval_atom, lookup_envOf]
  cases h : firstValue n bs with
  | none => simp
  | some v => by_cases hv : v = null <;> simp [hv]

/-- C13 fails where the evaluated head is the empty reference and where an element
cannot be evaluated: `((CDR (A)) B)` makes `eval_fn` read the type of `NULL`, and
`(A (EQUAL (B) B))` ends in `exit(1)`. -/
theorem C13_unknown_head_faults :
    eval 4 (list [list [atom "CDR", list [atom "A"]], atom "B"]) init_env = undef
    ∧ eval 4 (list [atom "A", list [atom "EQUAL", list [atom "B"], atom "B"]]) init_env
        = exit 1 := by
  decide

/-- C13, amended: for every list expression whose head is neither empty nor the atom
`LAMBDA`, whose elements all evaluate, left to right, each in the environment the
one before it left, and whose evaluated head is an atom or a pair, `eval` returns
the fresh proper list of the values in order, which has as many elements as the
expression, together with the last environment. -/
theorem C13_unknown_head_returns_list (k j : Nat) (t : Bool) (a d env : Obj)
    (v : Obj) (vs : List Obj) (env1 : Obj)
    (hnull : a ≠ null) (hlam : a ≠ atom "LAMBDA")
    (hseq : evalSeq (eval k) (a :: elems d) env = ok (v :: vs, env1))
    (hhead : isAtom v = true ∨ ∃ t1 a1 d1, v = cons t1 a1 d1) :
    eval (k + 1 + j) (cons t a d) env = ok (list (v :: vs), env1)
    ∧ (v :: vs).length = (a :: elems d).length := by
  refine ⟨?_, evalSeq_length _ _ _ _ _ hseq⟩
  have h1 : eval (k + 1) (cons t a d) env = ok (list (v :: vs), env1) := by
    rw [eval_cons, if_neg hnull, if_neg hlam]
    simp only [evalSeq] at hseq
    cases ha : eval k a env with
    | ok ve =>
        obtain ⟨v0, e0⟩ := ve
        rw [ha] at hseq
        simp only [ok_bind] at hseq ⊢
        have hl := eval_loop_evalSeq (eval k) d v0 [] e0
        simp only [list, List.nil_append] at hl
        rw [hl]
        cases hs : evalSeq (eval k) (elems d) e0 with
        | ok r =>
            obtain ⟨ws, e2⟩ := r
            rw [hs] at hseq
            simp only [ok_bind, ok.injEq, Prod.mk.injEq, List.cons.injEq] at hseq
            obtain ⟨⟨hv, hws⟩, he⟩ := hseq
            subst hv hws he
            simp only [ok_bind, eval_fn, first, second, list]
            rcases hhead with hh | ⟨t1, a1, d1, hh⟩
            · cases v0 <;> simp [isAtom] at hh
              rfl
            · subst hh; rfl
        | exit c => rw [hs] at hseq; cases hseq
        | undef => rw [hs] at hseq; cases hseq
        | timeout => rw [hs] at hseq; cases hseq
    | exit c => rw [ha] at hseq; cases hseq
    | undef => rw [ha] at hseq; cases hseq
    | timeout => rw [ha] at hseq; cases hseq
  rw [eval_add_stable (k + 1) j _ _ (by rw [h1]; simp), h1]

/-- C13, amended, at `(A B)` in the environment of `init_env`. -/
theorem C13_unknown_head_returns_list_witness :
    eval (1 + 1 + 0) (cons false (atom "A") (list [atom "B"])) init_env
      = ok (list [atom "A", atom "B"], init_env)
    ∧ [atom "A", atom "B"].length = (atom "A" :: elems (list [atom "B"])).length :=
  C13_unknown_head_returns_list 1 0 false (atom "A") (list [atom "B"]) init_env
    (atom "A") [atom "B"] init_env (by decide) (by decide) (by decide) (Or.inl rfl)

/-- C14, as the code behaves: `fn_cons` returns the fresh list of its first argument
followed by the `car` of every cell of its second argument.  The empty-list value is
itself a cell, with an empty `car`, so `(CONS A ())` returns a two-cell list whose
second element is `NULL` and which prints as `(A )`, not the one-element list `(A)`. -/
theorem C14_cons_onto_empty_list_value (j : Nat) :
    (∀ x rest env : Obj, fn_cons (list [x, rest]) env = ok (list (x :: elems rest), env))
    ∧ fn_cons (list [atom "A", nil]) init_env = ok (list [atom "A", null], init_env)
    ∧ eval (2 + j) (list [atom "CONS", atom "A", null]) init_env
        = ok (list [atom "A", null], init_env)
    ∧ print (list [atom "A", null]) = "(A )"
    ∧ print (list [atom "A"]) = "(A)" := by
  refine ⟨?_, by decide, ?_, by decide, by decide⟩
  · intro x rest env
    have hl := fn_cons_loop_list rest x []
    simp only [list, List.nil_append] at hl
    simp [fn_cons, list, first, second, hl]
  · rw [eval_add_stable 2 j _ _ (by decide)]; decide

/-- C15: whenever `eval` returns, within any recursion bound, from an environment
holding the associations `bs`, the environment it leaves holds `bs` followed by
further associations, and every name that had an association in `bs` is looked up
to the same value before and after. -/
theorem C15_environment_only_grows (k : Nat) (e : Obj) (bs : List (String × Obj))
    (v env1 : Obj) (h : eval k e (envOf bs) = ok (v, env1)) :
    ∃ extra, env1 = envOf (bs ++ extra)
      ∧ ∀ n w, firstValue n bs = some w →
          lookup n (envOf bs) = ok w ∧ lookup n env1 = ok w := by
  obtain ⟨extra, he⟩ := eval_grows k e bs v env1 h
  refine ⟨extra, he, fun n w hw => ?_⟩
  rw [he]
  simp [lookup_envOf, firstValue_append, hw]

/-- C15 at `(LABEL X A)` in the environment of `init_env`. -/
theorem C15_environment_only_grows_witness :
    ∃ extra, envOf (initBindings ++ [("X", atom "A")]) = envOf (initBindings ++ extra)
      ∧ ∀ n w, firstValue n initBindings = some w →
          lookup n (envOf initBindings) = ok w
          ∧ lookup n (envOf (initBindings ++ [("X", atom "A")])) = ok w :=
  C15_environment_only_grows 2 (list [atom "LABEL", atom "X", atom "A"]) initBindings tee
    (envOf (initBindings ++ [("X", atom "A")])) (by decide)

/-- C16, as the code behaves: at the end of the stream before a token's first
character `next_token` exits with status 0 (also after any run of white space), but
at the end of the stream after one or more characters of an atom it does not: the
loop that fills the buffer has no test for `EOF`, keeps reading and storing, and
overruns the buffer.  So `A` at the very end of the input, or `(CAR X`, ends in
undefined behaviour, and so does every token that the end of the stream cuts off. -/
theorem C16_end_of_stream_inside_atom :
    next_token [] = exit 0
    ∧ next_token "  \n".data = exit 0
    ∧ next_token "A ".data = ok (atom "A", [])
    ∧ next_token "A".data = undef
    ∧ read 3 "(CAR X".data = undef
    ∧ (∀ inp : List Char, (∀ x ∈ inp, isspace x = true) → next_token inp = exit 0)
    ∧ (∀ (c : Char) (cs : List Char), c ≠ '(' → (∀ x ∈ c :: cs, isDelim x = false) →
        next_token (c :: cs) = undef) := by
  refine ⟨rfl, by decide, by decide, by decide, by decide, ?_, ?_⟩
  · intro inp
    induction inp with
    | nil => intro _; rfl
    | cons c cs ih =>
        intro h
        rw [next_token_space c cs (h c (by simp))]
        exact ih (fun x hx => h x (by simp [hx]))
  · intro c cs hl h
    have hc := h c (by simp)
    simp only [isDelim, Bool.or_eq_false_iff, decide_eq_false_iff_not] at hc
    rw [next_token_char c cs hc.1, if_neg hc.2, if_neg hl, token_loop_eof cs c [] h]
    rfl

/-- Without a NUL in the input text, an object returned by `read` is either the atom
named `)` or every atom in it has a name that is not empty, holds no white space
and no `)`, and does not begin with `(`. -/
theorem read_names_without_nul (k : Nat) (inp : List Char) (obj : Obj) (rest : List Char)
    (hnul : ∀ x ∈ inp, x ≠ Char.ofNat 0) (h : read k inp = ok (obj, rest)) :
    obj = atom ")" ∨ atomsAll tokenName obj = true := by
  rw [read] at h
  cases ht : next_token inp with
  | ok r =>
      obtain ⟨tok, in1⟩ := r
      rw [ht] at h
      simp only [ok_bind] at h
      obtain ⟨htok, hin1⟩ := next_token_ok inp tok in1 hnul ht
      rcases htok with htok | htok | ⟨n, htok, hn⟩
      · subst htok
        have hne : ¬ (")" = "(") := by decide
        simp only [name, ok_bind, hne, if_false, ok.injEq, Prod.mk.injEq] at h
        exact Or.inl h.1.symm
      · subst htok
        simp only [name, ok_bind, if_true] at h
        exact Or.inr (read_tail_atoms k in1 obj rest hin1 h).1
      · subst htok
        obtain ⟨hn1, hn2⟩ := tokenName_ne_parens hn
        simp only [name, ok_bind, hn2, if_false, ok.injEq, Prod.mk.injEq] at h
        rw [← h.1]
        exact Or.inr hn
  | exit e => rw [ht] at h; cases h
  | undef => rw [ht] at h; cases h
  | timeout => rw [ht] at h; cases h

/-- C17 fails on both inputs named in the claim: the text `A(B` followed by a space
is read as one atom named `A(B`, and a bare `)` at top level is returned as the atom
named `)`.  A name can be empty as well: a NUL followed by a space is read as the
atom with the empty name. -/
theorem C17_atoms_with_parentheses :
    read 1 "A(B ".data = ok (atom "A(B", [])
    ∧ read 1 ")".data = ok (atom ")", [])
    ∧ read 1 [Char.ofNat 0, ' '] = ok (atom "", []) := by
  decide

/-- C17, amended: for every input text and every recursion bound, an object returned
by `read` is either the atom named `)` (a bare `)` at top level) or every atom in it
has a name that holds no white space and no `)` and does not begin with `(`; and
when the text holds no NUL, every such name is not empty either. -/
theorem C17_names_read (k : Nat) (inp : List Char) (obj : Obj) (rest : List Char)
    (h : read k inp = ok (obj, rest)) :
    obj = atom ")"
    ∨ (atomsAll tokenChars obj = true
        ∧ ((∀ x ∈ inp, x ≠ Char.ofNat 0) → atomsAll tokenName obj = true)) := by
  by_cases hobj : obj = atom ")"
  · exact Or.inl hobj
  · refine Or.inr ⟨?_, fun hnul => ?_⟩
    · rcases read_chars k inp obj rest h with h1 | h1
      · exact absurd h1 hobj
      · exact h1
    · rcases read_names_without_nul k inp obj rest hnul h with h1 | h1
      · exact absurd h1 hobj
      · exact h1

/-- C17, amended, at the text `(CAR (A(B C))` followed by a newline. -/
theorem C17_names_read_witness :
    read 8 "(CAR (A(B C))\n".data
        = ok (list [atom "CAR", list [atom "A(B", atom "C"]], "\n".data)
    ∧ (list [atom "CAR", list [atom "A(B", atom "C"]] = atom ")"
       ∨ (atomsAll tokenChars (list [atom "CAR", list [atom "A(B", atom "C"]]) = true
          ∧ ((∀ x ∈ "(CAR (A(B C))\n".data, x ≠ Char.ofNat 0) →
              atomsAll tokenName (list [atom "CAR", list [atom "A(B", atom "C"]]) = true))) :=
  ⟨by decide, C17_names_read 8 "(CAR (A(B C))\n".data
    (list [atom "CAR", list [atom "A(B", atom "C"]]) "\n".data (by decide)⟩

/-- C18: for parameters named `ps` (at least one), values `vs` (at least as many) and
a body built only from atoms and non-empty proper lists, `interleave` returns a
pairing list `w`, and `replace_atom` applied to the body and `w` returns the fresh
tree of the body's shape in which every atom leaf named like a parameter is replaced
by the value of the first such parameter and every other atom leaf is unchanged. -/
theorem C18_replace_atom_substitutes (ps : List String) (vs : List Obj) (body : Obj)
    (hps : ps ≠ []) (hlen : ps.length ≤ vs.length) (hbody : isBody body = true) :
    ∃ w, interleave (list (ps.map atom)) (list vs) = ok w
      ∧ replace_atom body w = ok (substSpec ps vs body) :=
  ⟨list (pairs ps vs), interleave_pairs ps vs hps hlen, (replace_atom_spec ps vs body).1 hbody⟩

/-- C18 at the parameters `X Y X`, the values `A B C` and the body `(F X (Y Z))`:
the result is `(F A (B Z))`, the first `X` winning over the repeated one. -/
theorem C18_replace_atom_substitutes_witness :
    (∃ w, interleave (list (["X", "Y", "X"].map atom)) (list [atom "A", atom "B", atom "C"]) = ok w
      ∧ replace_atom (list [atom "F", atom "X", list [atom "Y", atom "Z"]]) w
          = ok (substSpec ["X", "Y", "X"] [atom "A", atom "B", atom "C"]
              (list [atom "F", atom "X", list [atom "Y", atom "Z"]])))
    ∧ substSpec ["X", "Y", "X"] [atom "A", atom "B", atom "C"]
          (list [atom "F", atom "X", list [atom "Y", atom "Z"]])
        = list [atom "F", atom "A", list [atom "B", atom "Z"]] :=
  ⟨C18_replace_atom_substitutes ["X", "Y", "X"] [atom "A", atom "B", atom "C"]
    (list [atom "F", atom "X", list [atom "Y", atom "Z"]]) (by decide) (by decide) (by decide),
   by decide⟩

/-- C19 fails on what is consumed, and for names that do not fit the reader's
buffer: after the printed atom `A` and a newline `read` has taken the newline too,
after the printed list `(A)` and a newline it has left the newline unread, and the
printed text of an atom whose name has 128 characters overruns the buffer. -/
theorem C19_read_after_print_leftover :
    read 1 ((print (atom "A")).data ++ ['\n']) = ok (atom "A", [])
    ∧ read 3 ((print (list [atom "A"])).data ++ ['\n']) = ok (list [atom "A"], ['\n'])
    ∧ read 1 ((print (atom (String.mk (List.replicate 128 'A')))).data ++ ['\n']) = undef := by
  decide

/-- C19, amended: for every object built only from atoms whose names are not empty,
have at most 127 characters and hold no white space, parenthesis or NUL, and from
non-empty proper lists of such objects, `read` applied to the printed text, a
newline and any further text returns, within some recursion bound and every larger
one, an object structurally equal to it; what is left unread is the further text
when the object is an atom and the newline with the further text when it is a list. -/
theorem C19_read_undoes_print (t : Obj) (rest : List Char) (h : printable t = true) :
    ∃ k, ∀ j, read (k + j) ((print t).data ++ '\n' :: rest)
      = ok (untag t, if isAtom t = true then rest else '\n' :: rest) := by
  cases t with
  | null => simp [printable] at h
  | func f => simp [printable] at h
  | lambda p b => simp [printable] at h
  | atom n =>
      simp only [printable] at h
      obtain ⟨_, hn2⟩ := goodName_ne_parens h
      refine ⟨0, fun j => ?_⟩
      have htext : (print (atom n)).data = n.data := rfl
      rw [read, htext, next_token_name n '\n' rest h (by decide)]
      simp [name, hn2, untag, isAtom]
  | cons t a d =>
      obtain ⟨k, hk⟩ := read_tail_print_loop (cons t a d) (Or.inr ⟨⟨t, a, d, rfl⟩, h⟩)
        ('\n' :: rest)
      refine ⟨k, fun j => ?_⟩
      have h1 := hk j
      rw [print_loop_cons_data] at h1
      simp only [List.cons_append, List.append_assoc] at h1
      rw [read_tail_space _ ' ' _ (by decide)] at h1
      rw [read, print_cons_data]
      simp only [List.cons_append, List.append_assoc, List.nil_append]
      rw [next_token_lparen]
      simp only [ok_bind, name, if_true, isAtom]
      rw [h1]
      simp

/-- C19, amended, at the list `(CONS X (B))`, followed by the text `(NEXT)`. -/
theorem C19_read_undoes_print_witness :
    printable (list [atom "CONS", atom "X", list [atom "B"]]) = true
    ∧ ∃ k, ∀ j, read (k + j) ((print (list [atom "CONS", atom "X", list [atom "B"]])).data
          ++ '\n' :: "(NEXT)".data)
        = ok (untag (list [atom "CONS", atom "X", list [atom "B"]]),
              if isAtom (list [atom "CONS", atom "X", list [atom "B"]]) = true then "(NEXT)".data
              else '\n' :: "(NEXT)".data) :=
  ⟨by decide, C19_read_undoes_print _ "(NEXT)".data (by decide)⟩

/-- C20 fails because the argument's value is evaluated once more: with
`e = (EQUAL A B)` the form reads the type of `NULL`, with `e = (LAMBDA (Y) Y)` it ends
in `exit(1)`, and with `A` bound to `B` and `B` bound to `C`, where `A` evaluates to
the atom `B`, `((LAMBDA (X) X) A)` returns the atom `C`. -/
theorem C20_identity_evaluates_again :
    eval 4 (list [identityForm, list [atom "EQUAL", atom "A", atom "B"]]) init_env = undef
    ∧ eval 4 (list [identityForm, list [atom "LAMBDA", list [atom "Y"], atom "Y"]]) init_env
        = exit 1
    ∧ eval 2 (atom "A") (envOf (initBindings ++ [("A", atom "B"), ("B", atom "C")]))
        = ok (atom "B", envOf (initBindings ++ [("A", atom "B"), ("B", atom "C")]))
    ∧ eval 4 (list [identityForm, atom "A"])
          (envOf (initBindings ++ [("A", atom "B"), ("B", atom "C")]))
        = ok (atom "C", envOf (initBindings ++ [("A", atom "B"), ("B", atom "C")])) := by
  decide

/-- C20, amended: when `e` evaluates in `env` to `v` and leaves `env` as it was,
`((LAMBDA (X) X) e)` has in `env` the outcome of evaluating the value `v` once more
in `env`; so when that second evaluation returns, without changing `env`, an object
structurally equal to `v`, the form returns an object structurally equal to `v`. -/
theorem C20_identity_is_second_evaluation (k j : Nat) (e v env : Obj)
    (h : eval k e env = ok (v, env)) :
    eval (k + 1) (list [identityForm, e]) env = eval k v env
    ∧ ∀ w, eval k v env = ok (w, env) → untag w = untag v →
        ∃ r, eval (k + 1 + j) (list [identityForm, e]) env = ok (r, env) ∧ untag r = untag v := by
  have hk : ∃ m, k = m + 1 := by
    cases k with
    | zero => rw [eval_zero] at h; cases h
    | succ m => exact ⟨m, rfl⟩
  obtain ⟨m, hm⟩ := hk
  have hid : eval k identityForm env
      = ok (lambda (list [atom "X"]) (atom "X"), env) := by
    rw [hm]; rfl
  have hnull : identityForm ≠ null := by decide
  have hlam : identityForm ≠ atom "LAMBDA" := by decide
  have hi : interleave (list [atom "X"]) (cons false v null)
      = ok (list [list [atom "X", v]]) := rfl
  have hr : replace_atom (atom "X") (list [list [atom "X", v]]) = ok v := by
    simp [replace_atom, replace_scan, list, first, second, name]
  have h1 : eval (k + 1) (list [identityForm, e]) env = eval k v env := by
    simp only [list] at hi hr ⊢
    rw [eval_cons, if_neg hnull, if_neg hlam, hid]
    simp only [ok_bind, eval_loop, h, append, eval_fn, first, second, fn_lambda, list, hi, hr]
  refine ⟨h1, fun w hw huw => ⟨w, ?_, huw⟩⟩
  rw [eval_add_stable (k + 1) j _ _ (by rw [h1, hw]; simp), h1, hw]

/-- C20, amended, at `e = (A B)` in the environment of `init_env`. -/
theorem C20_identity_is_second_evaluation_witness :
    eval (2 + 1) (list [identityForm, list [atom "A", atom "B"]]) init_env
      = eval 2 (list [atom "A", atom "B"]) init_env
    ∧ ∀ w, eval 2 (list [atom "A", atom "B"]) init_env = ok (w, init_env) →
        untag w = untag (list [atom "A", atom "B"]) →
        ∃ r, eval (2 + 1 + 0) (list [identityForm, list [atom "A", atom "B"]]) init_env
            = ok (r, init_env) ∧ untag r = untag (list [atom "A", atom "B"]) :=
  C20_identity_is_second_evaluation 2 0 (list [atom "A", atom "B"]) (list [atom "A", atom "B"])
    init_env (by decide)

end Lispy
